import Mathlib

/-!
# Verification of the value-searcher encoding/decoding engine

Shallow embedding of the `value-searcher` library: the `ValueSearcher` class
(`addValue` / `findValueIn` / `#addEncodings` / `#findValueImpl` /
`checkChecksumLayer`), the `raceWithCondition` and `filterUniqBy` utilities,
and the `HexTransform`, `Base64Transform` and `JsonStringTransform` codecs.

Modelling conventions:
* A byte buffer (`Buffer`) is a `List Nat` of byte values; a JavaScript string
  is a `List Nat` of UTF-16 code units.  `Buffer#toString()` is UTF-8 decoding
  with replacement characters, `Buffer.from(string)` is UTF-8 encoding.
* Async generators are materialised into lists (`asyncGeneratorCollect`), and
  a generator that throws is modelled as `Except.error`; `assert` failures are
  `Except.error` as well (the TS `assert` throws before any state mutation).
* `Infinity` as produced by `Math.min` over empty data is `Option.none`.
* The cooperative concurrency of the search is determinised: tasks settle in
  list order (decoders, then candidate buffers, depth first); this fixes one
  of the schedules admitted by the single-threaded event loop.  All branches
  are evaluated (`Promise.allSettled` runs every task) and the race winner is
  the first task, in that order, that either rejects or resolves passing the
  condition, mirroring first-call-wins of `resolve`/`reject`.
* The JS regexes of the codecs are embedded by their matching semantics
  (documented at each matcher) rather than by a backtracking engine.
-/

/-- Byte buffers: `Buffer` values are lists of bytes (each `< 256`). -/
abbrev ByteBuf := List Nat

/-- JS strings: lists of UTF-16 code units. -/
abbrev CUStr := List Nat

/-! ## CRC32 (the `crc` package's `crc32`, standard reflected polynomial) -/

/-- One bit step of the reflected CRC-32 with polynomial `0xEDB88320`. -/
def crc32BitStep (c : Nat) : Nat :=
  if c &&& 1 = 1 then (c >>> 1) ^^^ 0xEDB88320 else c >>> 1

/-- Eight bit steps, processing one byte that was xored into the register. -/
def crc32ByteStep (c : Nat) : Nat :=
  crc32BitStep (crc32BitStep (crc32BitStep (crc32BitStep
    (crc32BitStep (crc32BitStep (crc32BitStep (crc32BitStep c)))))))

/-- CRC-32 of a buffer (init `0xFFFFFFFF`, final xor `0xFFFFFFFF`). -/
def crc32 (b : ByteBuf) : Nat :=
  (b.foldl (fun c byte => crc32ByteStep (c ^^^ byte)) 0xFFFFFFFF) ^^^ 0xFFFFFFFF

/-! ## Checksum-to-layer maps (`Map<number, number>`) and checksum sets -/

/-- A `Map<number /*checksum*/, number /*layer*/>` as an association list. -/
abbrev ChkMap := List (Nat × Nat)

/-- The `Map.get` operation. -/
def mapFind (m : ChkMap) (k : Nat) : Option Nat :=
  match m with
  | [] => none
  | (k', v) :: rest => if k' = k then some v else mapFind rest k

/-- The `Map.set` operation (replaces an existing binding). -/
def mapInsert (m : ChkMap) (k v : Nat) : ChkMap :=
  match m with
  | [] => [(k, v)]
  | (k', v') :: rest =>
      if k' = k then (k, v) :: rest else (k', v') :: mapInsert rest k v

/-! ## UTF-8 transcoding (`Buffer#toString()` / `Buffer.from(string)`) -/

/-- Is a byte a UTF-8 continuation byte (`0x80..0xBF`)? -/
def isCont (b : Nat) : Bool := 0x80 ≤ b && b ≤ 0xBF

/-- Decode one UTF-8 sequence: from a head byte and the remaining bytes,
produce the emitted UTF-16 code units (with `0xFFFD` for invalid sequences,
as `Buffer#toString('utf8')` does) and the bytes left to decode. -/
def utf8Step (b : Nat) (rest : ByteBuf) : CUStr × ByteBuf :=
  if b < 0x80 then ([b], rest)
  else if 0xC2 ≤ b && b ≤ 0xDF then
    match rest with
    | b2 :: r2 =>
      if isCont b2 then ([(b - 0xC0) * 64 + (b2 - 0x80)], r2)
      else ([0xFFFD], b2 :: r2)
    | [] => ([0xFFFD], [])
  else if 0xE0 ≤ b && b ≤ 0xEF then
    match rest with
    | b2 :: b3 :: r3 =>
      if (isCont b2 && !(b = 0xE0 && b2 < 0xA0) && !(b = 0xED && 0xA0 ≤ b2))
          && isCont b3 then
        ([(b - 0xE0) * 4096 + (b2 - 0x80) * 64 + (b3 - 0x80)], r3)
      else ([0xFFFD], b2 :: b3 :: r3)
    | r => ([0xFFFD], if r.length ≤ 1 then [] else r)
  else if 0xF0 ≤ b && b ≤ 0xF4 then
    match rest with
    | b2 :: b3 :: b4 :: r4 =>
      if (isCont b2 && !(b = 0xF0 && b2 < 0x90) && !(b = 0xF4 && 0x90 ≤ b2))
          && isCont b3 && isCont b4 then
        let cp := (b - 0xF0) * 262144 + (b2 - 0x80) * 4096 +
                  (b3 - 0x80) * 64 + (b4 - 0x80)
        ([0xD800 + (cp - 0x10000) / 0x400, 0xDC00 + (cp - 0x10000) % 0x400], r4)
      else ([0xFFFD], b2 :: b3 :: b4 :: r4)
    | r => ([0xFFFD], if r.length ≤ 2 then [] else r)
  else ([0xFFFD], rest)

/-- UTF-8 decoding, fuel-based recursion (every step consumes at least the
head byte, so fuel equal to the length suffices). -/
def utf8DecodeAux : Nat → ByteBuf → CUStr
  | 0, _ => []
  | _ + 1, [] => []
  | f + 1, b :: rest =>
    (utf8Step b rest).1 ++ utf8DecodeAux f (utf8Step b rest).2

/-- UTF-8 decoding of a byte buffer into UTF-16 code units. -/
def utf8DecodeCU (l : ByteBuf) : CUStr := utf8DecodeAux l.length l

/-- Encode one UTF-16 code unit (given the following units, for surrogate
pairing): emitted UTF-8 bytes (lone surrogates become `U+FFFD`, as
`Buffer.from(string, 'utf8')` does) and the units left to encode. -/
def utf16Step (u : Nat) (rest : CUStr) : ByteBuf × CUStr :=
  if u < 0x80 then ([u], rest)
  else if u < 0x800 then ([0xC0 + u / 64, 0x80 + u % 64], rest)
  else if 0xD800 ≤ u && u ≤ 0xDBFF then
    match rest with
    | u2 :: r2 =>
      if 0xDC00 ≤ u2 && u2 ≤ 0xDFFF then
        let cp := 0x10000 + (u - 0xD800) * 0x400 + (u2 - 0xDC00)
        ([0xF0 + cp / 262144, 0x80 + cp / 4096 % 64,
          0x80 + cp / 64 % 64, 0x80 + cp % 64], r2)
      else ([0xEF, 0xBF, 0xBD], u2 :: r2)
    | [] => ([0xEF, 0xBF, 0xBD], [])
  else if 0xDC00 ≤ u && u ≤ 0xDFFF then ([0xEF, 0xBF, 0xBD], rest)
  else ([0xE0 + u / 4096, 0x80 + u / 64 % 64, 0x80 + u % 64], rest)

/-- UTF-8 encoding, fuel-based recursion (every step consumes at least the
head unit, so fuel equal to the length suffices). -/
def utf8EncodeAux : Nat → CUStr → ByteBuf
  | 0, _ => []
  | _ + 1, [] => []
  | f + 1, u :: rest =>
    (utf16Step u rest).1 ++ utf8EncodeAux f (utf16Step u rest).2

/-- UTF-8 encoding of UTF-16 code units. -/
def utf8EncodeCU (l : CUStr) : ByteBuf := utf8EncodeAux l.length l

/-! ## `utils.ts`: `raceWithCondition`, `filterUniqBy`, `tryAdd` -/

/-- Embedding of `raceWithCondition` from `src/utils.ts`.  Each task is an
already-evaluated settlement (`Except.error` = rejected promise).  Under the
determinised schedule tasks settle in list order, the first `resolve` or
`reject` call wins, and `resolve(undefined)` fires only after all tasks have
settled; so the race returns the first error or first condition-passing value
in order, and `none` (JS `undefined`) if neither occurs. -/
def raceWithCondition {ε α : Type} (tasks : List (Except ε α))
    (cond : α → Bool) : Except ε (Option α) :=
  match tasks with
  | [] => .ok none
  | .error e :: _ => .error e
  | .ok v :: rest =>
      if cond v then .ok (some v) else raceWithCondition rest cond

/-- Embedding of `filterUniqBy` from `src/utils.ts`: keep the elements whose
key is not yet in `seen` (mutating `seen` via `tryAdd` as it goes), and
return the kept elements together with the grown `seen` set. -/
def filterUniqBy {α : Type} (items : List α) (seen : List Nat)
    (map : α → Nat) : List α × List Nat :=
  match items with
  | [] => ([], seen)
  | x :: xs =>
      if map x ∈ seen then filterUniqBy xs seen map
      else
        let r := filterUniqBy xs (map x :: seen) map
        (x :: r.1, r.2)

/-! ## The transformer abstraction (`ValueTransformer`)

The TS interface is a capability record of optional methods; `extractDecode`
returns an async generator whose collection may reject, hence
`Except String`.  `minLength` is a JS number that can be `Infinity`
(`Option.none` here); `minLenLe m n` decides `m ≤ n` with
`Infinity ≤ n` false. -/

/-- Is the `minLength` bound (none = `Infinity`) at most `n`? -/
def minLenLe (m : Option Nat) (n : Nat) : Bool :=
  match m with
  | none => false
  | some k => k ≤ n

/-- A `ValueTransformer`: named capability record of optional
`encodings` / `extractDecode` / `compressedLength` methods. -/
structure Transformer where
  name : String
  encodings : Option (ByteBuf → List ByteBuf)
  extractDecode : Option (ByteBuf → Option Nat → Except String (List ByteBuf))
  compressedLength : Option (ByteBuf → Nat)

/-! ## `checkChecksumLayer` (layer-parameterised memoisation) -/

/-- Embedding of the per-element test of `checkChecksumLayer`: given the
mutable map and the current layer, test one checksum; accept iff the map has
no entry for it or the recorded layer is strictly lower, and on acceptance
record the current layer.  Returns (accepted?, updated map). -/
def checkChecksumLayer (checksums : ChkMap) (thisLayer : Nat)
    (checksum : Nat) : Bool × ChkMap :=
  match mapFind checksums checksum with
  | none => (true, mapInsert checksums checksum thisLayer)
  | some prevLayer =>
      if thisLayer > prevLayer then (true, mapInsert checksums checksum thisLayer)
      else (false, checksums)

/-- `List#filter` with the stateful `checkChecksumLayer` predicate, threading
the mutated map left to right as the JS closure does. -/
def filterChecksumLayer {α : Type} (getChecksum : α → Nat) (thisLayer : Nat)
    (checksums : ChkMap) (l : List α) : List α × ChkMap :=
  match l with
  | [] => ([], checksums)
  | x :: xs =>
      let s := checkChecksumLayer checksums thisLayer (getChecksum x)
      let r := filterChecksumLayer getChecksum thisLayer s.2 xs
      (if s.1 then x :: r.1 else r.1, r.2)

/-! ## `Buffer#includes` -/

/-- The `Buffer#includes` test: is `needle` a contiguous subsequence of
`haystack`?  (`includes` of an empty needle is `true`.) -/
def bufIncludes (haystack needle : ByteBuf) : Bool :=
  decide (needle <:+: haystack)

/-! ## Maximal-run matchers

Several of the codec regexes only accept runs delimited by boundary
lookarounds: `\b(?:(?:[a-f0-9]{2})+|(?:[A-F0-9]{2})+)\b` (hex) and
`(?<![D])[D]+(?![D])` (unpadded base64).  For such regexes `matchAll`
produces, in order, exactly the maximal runs of the relevant character class
that satisfy the inner pattern: a hex match must start and end at a `\b`
word boundary, every character the inner pattern can consume is a word
character, so matches start only where a maximal word run starts and can end
only where it ends (greedy backtracking inside the run always leaves the
`\b` unsatisfied); a base64 match is directly a maximal `[D]` run by the
lookarounds.  The embedding therefore splits the subject into maximal runs
of a class predicate. -/

/-- Run splitting, fuel-based recursion (every step consumes at least the
head character, so fuel equal to the length suffices). -/
def splitRunsAux (p : Nat → Bool) : Nat → CUStr → List CUStr
  | 0, _ => []
  | _ + 1, [] => []
  | f + 1, c :: rest =>
    if p c then (c :: rest.takeWhile p) :: splitRunsAux p f (rest.dropWhile p)
    else splitRunsAux p f rest

/-- Split a string into its maximal runs of characters satisfying `p`,
in order, dropping the characters outside the runs. -/
def splitRunsBy (p : Nat → Bool) (l : CUStr) : List CUStr :=
  splitRunsAux p l.length l

/-- JS `\w` word characters: `[A-Za-z0-9_]`. -/
def wordChar (c : Nat) : Bool :=
  (48 ≤ c && c ≤ 57) || (65 ≤ c && c ≤ 90) || (97 ≤ c && c ≤ 122) || c = 95

/-! ## `HexTransform` -/

/-- Lowercase hex digit class `[a-f0-9]`. -/
def lowerHexChar (c : Nat) : Bool := (48 ≤ c && c ≤ 57) || (97 ≤ c && c ≤ 102)

/-- Uppercase hex digit class `[A-F0-9]`. -/
def upperHexChar (c : Nat) : Bool := (48 ≤ c && c ≤ 57) || (65 ≤ c && c ≤ 70)

/-- Value of a hex digit character (either case). -/
def hexVal (c : Nat) : Nat :=
  if 48 ≤ c && c ≤ 57 then c - 48
  else if 97 ≤ c && c ≤ 102 then c - 97 + 10
  else if 65 ≤ c && c ≤ 70 then c - 65 + 10
  else 0

/-- Lowercase hex digit character of a value `< 16`. -/
def hexDigitL (v : Nat) : Nat := if v < 10 then 48 + v else 97 + v - 10

/-- Uppercase hex digit character of a value `< 16`. -/
def hexDigitU (v : Nat) : Nat := if v < 10 then 48 + v else 65 + v - 10

/-- `Buffer#toString('hex')`: two lowercase digits per byte. -/
def hexEncStr (v : ByteBuf) : CUStr :=
  v.flatMap (fun b => [hexDigitL (b / 16), hexDigitL (b % 16)])

/-- `Buffer.from(str, 'hex')`: decode consecutive digit pairs. -/
def hexDecodePairs : CUStr → ByteBuf
  | h1 :: h2 :: rest => (hexVal h1 * 16 + hexVal h2) :: hexDecodePairs rest
  | _ => []

/-- The matches of the `HexTransform#extractDecode` regex
`\b(?:(?:[a-f0-9]{2})+|(?:[A-F0-9]{2})+)\b` (for the default
`{lowercase, uppercase}` variants): maximal word runs of even length whose
characters are all lowercase-hex or all uppercase-hex (casing cannot mix
within a single match). -/
def hexMatches (s : CUStr) : List CUStr :=
  (splitRunsBy wordChar s).filter
    (fun run => run.length % 2 = 0 &&
      (run.all lowerHexChar || run.all upperHexChar))

/-- `HexTransform#extractDecode` (default variants): decode every match of
length at least `minLength`. -/
def hexExtractDecode (value : ByteBuf) (minLength : Option Nat) :
    Except String (List ByteBuf) :=
  .ok ((hexMatches (utf8DecodeCU value)).filterMap
    (fun m => if minLenLe minLength m.length then some (hexDecodePairs m)
              else none))

/-- `HexTransform#encodings` (default variants): the lowercase and the
uppercase hex rendering. -/
def hexEncodings (value : ByteBuf) : List ByteBuf :=
  [v.flatMap (fun b => [hexDigitL (b / 16), hexDigitL (b % 16)]),
   v.flatMap (fun b => [hexDigitU (b / 16), hexDigitU (b % 16)])]
  where v := value

/-- The `HexTransform` instance with default variants. -/
def hexTransform : Transformer :=
  { name := "hex"
    encodings := some hexEncodings
    extractDecode := some hexExtractDecode
    compressedLength := none }

/-! ## `Base64Transform` -/

/-- A base64 dialect: digit 62, digit 63 and optional padding character
(the TS 2-3 character dialect string). -/
structure B64Dialect where
  d62 : Nat
  d63 : Nat
  pad : Option Nat
deriving DecidableEq

/-- The preset dialects of `Base64Transform`. -/
def b64PaddedDialect : B64Dialect := ⟨43, 47, some 61⟩

/-- The non-padded standard dialect `'+/'`. -/
def b64NonPaddedDialect : B64Dialect := ⟨43, 47, none⟩

/-- The URL-safe dialect `'-_'`. -/
def b64UrlSafeDialect : B64Dialect := ⟨45, 95, none⟩

/-- The `lz-string` URI dialect `'+-'`. -/
def b64AltUrlSafeDialect : B64Dialect := ⟨43, 45, none⟩

/-- The default dialect set, in constructor order. -/
def b64DefaultDialects : List B64Dialect :=
  [b64PaddedDialect, b64NonPaddedDialect, b64UrlSafeDialect,
   b64AltUrlSafeDialect]

/-- The 62 alphanumeric base64 digits `A-Za-z0-9` in order. -/
def alphabet62 : List Nat :=
  (List.range 26).map (fun i => 65 + i) ++ (List.range 26).map (fun i => 97 + i)
    ++ (List.range 10).map (fun i => 48 + i)

/-- The standard base64 alphabet `A-Za-z0-9+/`. -/
def alphabet64 : List Nat := alphabet62 ++ [43, 47]

/-- Character of a digit value `< 64` in the standard alphabet. -/
def b64DigitChar (v : Nat) : Nat := alphabet64.getD v 65

/-- Is `c` alphanumeric (`A-Za-z0-9`)? -/
def alnumChar (c : Nat) : Bool :=
  (65 ≤ c && c ≤ 90) || (97 ≤ c && c ≤ 122) || (48 ≤ c && c ≤ 57)

/-- The digit class `[A-Za-z0-9 d62 d63]` of a dialect. -/
def b64ClassD (d : B64Dialect) (c : Nat) : Bool :=
  alnumChar c || c = d.d62 || c = d.d63

/-- Standard-alphabet digit value of a character (`Buffer.from(_, 'base64')`
skips characters outside the alphabet). -/
def stdDigitVal (c : Nat) : Option Nat :=
  if 65 ≤ c && c ≤ 90 then some (c - 65)
  else if 97 ≤ c && c ≤ 122 then some (c - 97 + 26)
  else if 48 ≤ c && c ≤ 57 then some (c - 48 + 52)
  else if c = 43 then some 62
  else if c = 47 then some 63
  else none

/-- Digit value for `Buffer.from(_, 'base64url')`; Node's decoder is lenient
and accepts both the URL-safe and the standard digits 62/63. -/
def urlDigitVal (c : Nat) : Option Nat :=
  if c = 45 then some 62 else if c = 95 then some 63 else stdDigitVal c

/-- Digit values of the canonical (standard, padded) base64 rendering of a
byte buffer, 4 digits per 3 bytes, partial groups for 1 or 2 tail bytes. -/
def b64DigitsOfBytes : ByteBuf → List Nat
  | [] => []
  | [b1] => [b1 / 4, b1 % 4 * 16]
  | [b1, b2] => [b1 / 4, b1 % 4 * 16 + b2 / 16, b2 % 16 * 4]
  | b1 :: b2 :: b3 :: rest =>
      b1 / 4 :: (b1 % 4 * 16 + b2 / 16) :: (b2 % 16 * 4 + b3 / 64) ::
        b3 % 64 :: b64DigitsOfBytes rest

/-- Bytes of a digit-value sequence, 3 bytes per 4 digits; bits of a partial
tail group that do not fill a byte are discarded (Node semantics, e.g.
`Buffer.from('/', 'base64').length === 0`). -/
def b64BytesOfDigits : List Nat → ByteBuf
  | d1 :: d2 :: d3 :: d4 :: rest =>
      (d1 * 4 + d2 / 16) :: (d2 % 16 * 16 + d3 / 4) :: (d3 % 4 * 64 + d4) ::
        b64BytesOfDigits rest
  | [d1, d2] => [d1 * 4 + d2 / 16]
  | [d1, d2, d3] => [d1 * 4 + d2 / 16, d2 % 16 * 16 + d3 / 4]
  | _ => []

/-- `Buffer.from(str, 'base64')`. -/
def b64StdDecode (s : CUStr) : ByteBuf := b64BytesOfDigits (s.filterMap stdDigitVal)

/-- `Buffer.from(str, 'base64url')`. -/
def b64UrlDecode (s : CUStr) : ByteBuf := b64BytesOfDigits (s.filterMap urlDigitVal)

/-- `Buffer#toString('base64')`: canonical digits plus `'='` padding to a
multiple of four characters. -/
def b64StdString (v : ByteBuf) : CUStr :=
  (b64DigitsOfBytes v).map b64DigitChar ++
    List.replicate ((4 - (b64DigitsOfBytes v).length % 4) % 4) 61

/-- Dialect substitution applied to the canonical padded rendering
(`base64.replaceAll(/[+/=]/g, c => digitMap[c])`, where `'='` maps to the
dialect's padding or to the empty string). -/
def b64ApplyDialect (d : B64Dialect) (s : CUStr) : CUStr :=
  s.flatMap (fun c =>
    if c = 43 then [d.d62]
    else if c = 47 then [d.d63]
    else if c = 61 then (match d.pad with | some p => [p] | none => [])
    else [c])

/-- `Base64Transform#encodings`: one rendering per dialect, in dialect
order; the standard padded dialect short-circuits to the canonical string. -/
def b64Encodings (ds : List B64Dialect) (value : ByteBuf) : List ByteBuf :=
  ds.map (fun d =>
    if d = b64PaddedDialect then utf8EncodeCU (b64StdString value)
    else utf8EncodeCU (b64ApplyDialect d (b64StdString value)))

/-- The dialects for which a find-regex is built: padded dialects are
skipped when the corresponding non-padded dialect is also present. -/
def b64FilteredDialects (ds : List B64Dialect) : List B64Dialect :=
  ds.filter (fun d =>
    !(d.pad.isSome && decide ((⟨d.d62, d.d63, none⟩ : B64Dialect) ∈ ds)))

/-- Consume exactly `k` characters of the dialect's digit class. -/
def b64ConsumeDs (d : B64Dialect) : Nat → CUStr → Option CUStr
  | 0, s => some s
  | _ + 1, [] => none
  | k + 1, c :: rest => if b64ClassD d c then b64ConsumeDs d k rest else none

/-- Consume exactly `k` padding characters. -/
def b64ConsumePads (pad : Nat) : Nat → CUStr → Option CUStr
  | 0, s => some s
  | _ + 1, [] => none
  | k + 1, c :: rest => if c = pad then b64ConsumePads pad k rest else none

/-- The `(?![D P])` lookahead after a padded match. -/
def b64PadLookahead (d : B64Dialect) (pad : Nat) (s : CUStr) : Bool :=
  match s with
  | [] => true
  | c :: _ => !(b64ClassD d c || c = pad)

/-- One tail alternative of the padded regex
(`[D]{4} | [D]{3}P | [D]{2}P{2} | [D]P{3}`): `k` digits then `4 - k`
paddings, then the lookahead; consumes exactly four characters. -/
def b64TailAlt (d : B64Dialect) (pad : Nat) (k : Nat) (s : CUStr) : Bool :=
  match b64ConsumeDs d k s with
  | none => false
  | some s1 =>
      match b64ConsumePads pad (4 - k) s1 with
      | none => false
      | some s2 => b64PadLookahead d pad s2

/-- The four tail alternatives in regex order. -/
def b64TailAt (d : B64Dialect) (pad : Nat) (s : CUStr) : Bool :=
  b64TailAlt d pad 4 s || b64TailAlt d pad 3 s || b64TailAlt d pad 2 s ||
    b64TailAlt d pad 1 s

/-- Greedy-with-backtracking `(?:[D]{4})*` followed by a tail: try `q`
four-digit groups, largest first, and return the consumed length. -/
def b64TryQ (d : B64Dialect) (pad : Nat) (s : CUStr) : Nat → Option Nat
  | 0 => if b64TailAt d pad s then some 4 else none
  | q + 1 =>
      (match b64ConsumeDs d (4 * (q + 1)) s with
       | some s1 => if b64TailAt d pad s1 then some (4 * (q + 1) + 4) else none
       | none => none).orElse (fun _ => b64TryQ d pad s q)

/-- Match the padded regex at the start of `s` (the `(?<![D])` lookbehind is
checked by the caller); returns the match length. -/
def b64PaddedMatchAt (d : B64Dialect) (pad : Nat) (s : CUStr) : Option Nat :=
  b64TryQ d pad s ((s.takeWhile (b64ClassD d)).length / 4)

/-- `matchAll` of the padded regex: scan left to right, skipping positions
whose preceding character is in the digit class (failed lookbehind), and
continue after each match.  `fuel` bounds the recursion; the callers pass
the subject length plus one, which suffices since every step advances. -/
def b64PaddedScanAux (d : B64Dialect) (pad : Nat) :
    Nat → Bool → CUStr → List CUStr
  | 0, _, _ => []
  | _ + 1, _, [] => []
  | f + 1, prevD, c :: rest =>
    if prevD then b64PaddedScanAux d pad f (b64ClassD d c) rest
    else
      match b64PaddedMatchAt d pad (c :: rest) with
      | some len =>
          ((c :: rest).take len) ::
            b64PaddedScanAux d pad f
              (b64ClassD d (((c :: rest).take len).getLastD 0))
              ((c :: rest).drop len)
      | none => b64PaddedScanAux d pad f (b64ClassD d c) rest

/-- All matches of a dialect's find-regex in a subject string. -/
def b64Matches (d : B64Dialect) (str : CUStr) : List CUStr :=
  match d.pad with
  | some p => b64PaddedScanAux d p (str.length + 1) false str
  | none => splitRunsBy (b64ClassD d) str

/-- The `decodeChar` helper: index in
`'A-Za-z0-9' + dialect` (62 alphanumerics, then the 2-3 dialect
characters).  JS `indexOf` yields `-1` for a character not found, and
`-1 & mask` is `mask`, which is non-zero for the masks used (2, 4 or 6
dropped bits), so absence maps to `true`. -/
def b64Overflow (d : B64Dialect) (bits : Nat) (c : Nat) : Bool :=
  match (alphabet62 ++ [d.d62, d.d63] ++ d.pad.toList).findIdx? (· = c) with
  | some i => i &&& (2 ^ bits - 1) ≠ 0
  | none => true

/-- The tail-bit recovery of `Base64Transform#extractDecode`: for a token
whose length is not a multiple of four, compute
`bitsDropped = (len * 6) mod 8` and append an all-zero digit `'A'` when the
final digit has any of its low `bitsDropped` bits set, or when
`len mod 4 == 1`. -/
def b64Repair (d : B64Dialect) (m : CUStr) : CUStr :=
  if m.length % 4 = 0 then m
  else
    let bits := m.length * 6 % 8
    if b64Overflow d bits (m.getLastD 0) || m.length % 4 = 1 then m ++ [65]
    else m

/-- `Base64Transform#extractDecode` (with `trySkipFirstChars = false`):
strip CR/LF, and for each remaining dialect's regex match of sufficient
length, strip padding, remap non-standard digits 62/63 to `+` and `/`
(unless the dialect starts with `+/` or `-_`), apply the tail-bit repair
and decode with the standard or URL-safe decoder. -/
def b64ExtractDecode (ds : List B64Dialect) (value : ByteBuf)
    (minLength : Option Nat) : Except String (List ByteBuf) :=
  .ok (
    let str := (utf8DecodeCU value).filter (fun c => !(c = 13 || c = 10))
    (b64FilteredDialects ds).flatMap (fun d =>
      (b64Matches d str).flatMap (fun m0 =>
        if !minLenLe minLength m0.length then [] else
        let m1 := match d.pad with
                  | some p => m0.filter (fun c => c ≠ p)
                  | none => m0
        let m2 := if (d.d62 = 43 && d.d63 = 47) || (d.d62 = 45 && d.d63 = 95)
                  then m1
                  else m1.map (fun c =>
                    if c = d.d62 then 43 else if c = d.d63 then 47 else c)
        if m2.length = 0 || !minLenLe minLength m2.length then [] else
        let enc := b64Repair d m2
        [if d.d62 = 45 && d.d63 = 95 then b64UrlDecode enc
         else b64StdDecode enc])))

/-- The `Base64Transform` instance with the default dialect set. -/
def base64Transform : Transformer :=
  { name := "base64"
    encodings := some (b64Encodings b64DefaultDialects)
    extractDecode := some (b64ExtractDecode b64DefaultDialects)
    compressedLength := none }

/-- A `Base64Transform` constructed with only the standard padded dialect
(`new Base64Transform(new Set(['+/=']))`). -/
def base64PaddedTransform : Transformer :=
  { name := "base64"
    encodings := some (b64Encodings [b64PaddedDialect])
    extractDecode := some (b64ExtractDecode [b64PaddedDialect])
    compressedLength := none }

/-! ## `JsonStringTransform` -/

/-- Is `c` one of the single-character escapes `["\\/bfnrt]`? -/
def jsonSimpleEsc (c : Nat) : Bool :=
  c = 34 || c = 92 || c = 47 || c = 98 || c = 102 || c = 110 || c = 114 ||
    c = 116

/-- Is `c` a hex digit `[a-fA-F0-9]`? -/
def jsonHexDigit (c : Nat) : Bool :=
  (48 ≤ c && c ≤ 57) || (97 ≤ c && c ≤ 102) || (65 ≤ c && c ≤ 70)

/-- Scan the body of a JSON string after the opening quote, per the regex
`"(?:[^"\\\0-\x1f]|\\(?:["\\/bfnrt]|u[a-fA-F0-9]{4}))*"`.  The starred
atoms never consume a quote, so greedy matching without backtracking is
exact: the match at a given opening quote succeeds iff this scan reaches a
closing quote.  Returns the body including the closing quote, plus the
remaining input. -/
def jsonScanBodyAux : Nat → CUStr → Option (CUStr × CUStr)
  | 0, _ => none
  | _ + 1, [] => none
  | _ + 1, 34 :: rest => some ([34], rest)
  | f + 1, 92 :: rest =>
      (match rest with
       | [] => none
       | e :: r2 =>
         if jsonSimpleEsc e then
           (jsonScanBodyAux f r2).map (fun br => (92 :: e :: br.1, br.2))
         else if e = 117 then
           match r2 with
           | h1 :: h2 :: h3 :: h4 :: r3 =>
             if jsonHexDigit h1 && jsonHexDigit h2 && jsonHexDigit h3 &&
                 jsonHexDigit h4 then
               (jsonScanBodyAux f r3).map
                 (fun br => (92 :: 117 :: h1 :: h2 :: h3 :: h4 :: br.1, br.2))
             else none
           | _ => none
         else none)
  | f + 1, c :: rest =>
      if c < 32 then none
      else (jsonScanBodyAux f rest).map (fun br => (c :: br.1, br.2))

/-- Scan of the body of a JSON string match (fuel: the subject length). -/
def jsonScanBody (l : CUStr) : Option (CUStr × CUStr) :=
  jsonScanBodyAux l.length l

/-- `matchAll` of the JSON-string regex: try a match at every quote
character, continuing after each match (and after a failed opening quote,
from the next position).  `fuel` bounds the recursion; callers pass the
subject length plus one, which suffices since every step advances. -/
def jsonMatchesAux : Nat → CUStr → List CUStr
  | 0, _ => []
  | _ + 1, [] => []
  | f + 1, 34 :: rest =>
      (match jsonScanBody rest with
       | some (body, rest2) => (34 :: body) :: jsonMatchesAux f rest2
       | none => jsonMatchesAux f rest)
  | f + 1, _ :: rest => jsonMatchesAux f rest

/-- All matches of the JSON-string regex in a subject string. -/
def jsonMatches (s : CUStr) : List CUStr := jsonMatchesAux (s.length + 1) s

/-- `JSON.parse` of a matched string literal: strip the quotes and resolve
the escapes (`\uXXXX` yields the UTF-16 code unit). -/
def jsonUnescape : CUStr → CUStr
  | [] => []
  | 92 :: e :: rest =>
      if e = 117 then
        match rest with
        | h1 :: h2 :: h3 :: h4 :: r3 =>
            (hexVal h1 * 4096 + hexVal h2 * 256 + hexVal h3 * 16 + hexVal h4)
              :: jsonUnescape r3
        | r3 => jsonUnescape r3
      else
        (if e = 98 then 8 else if e = 102 then 12 else if e = 110 then 10
         else if e = 114 then 13 else if e = 116 then 9 else e)
          :: jsonUnescape rest
  | c :: rest => c :: jsonUnescape rest

/-- `JsonStringTransform#extractDecode`: for every regex match that is
longer than the bare `""` and at least `minLength` long,
`Buffer.from(JSON.parse(match))`. -/
def jsonExtractDecode (value : ByteBuf) (minLength : Option Nat) :
    Except String (List ByteBuf) :=
  .ok ((jsonMatches (utf8DecodeCU value)).filterMap (fun m =>
    if 2 < m.length && minLenLe minLength m.length then
      some (utf8EncodeCU (jsonUnescape ((m.drop 1).dropLast)))
    else none))

/-- The `JsonStringTransform` instance. -/
def jsonStringTransform : Transformer :=
  { name := "json-string"
    encodings := none
    extractDecode := some jsonExtractDecode
    compressedLength := none }

/-! ## `ValueSearcher` -/

/-- A needle: an encoded form of a value together with the transformer
chain (outside-in) that produced it.  The empty chain marks a raw value. -/
structure Needle where
  buffer : ByteBuf
  transformers : List Transformer

/-- The mutable state of a `ValueSearcher`. -/
structure SearcherState where
  values : List ByteBuf
  valueChecksums : List Nat
  needles : List Needle
  needleChecksums : List Nat
  minNeedleLength : Option Nat

/-- The empty searcher (`new ValueSearcher(...)`), with
`minNeedleLength = Infinity`. -/
def emptySearcher : SearcherState :=
  { values := [], valueChecksums := [], needles := [], needleChecksums := []
    minNeedleLength := none }

/-- `Math.min` where `none` is `Infinity`. -/
def optMin (a b : Option Nat) : Option Nat :=
  match a, b with
  | none, b => b
  | a, none => a
  | some x, some y => some (min x y)

/-- Does the transformer expose `encodings`? -/
def hasEncodings (t : Transformer) : Bool := t.encodings.isSome

/-- Does the transformer expose `extractDecode` (is it reversible)? -/
def hasExtractDecode (t : Transformer) : Bool := t.extractDecode.isSome

/-- Call `t.encodings!` (callers have filtered on `hasEncodings`; for a
transformer without `encodings` the TS `!` would crash, modelled as no
encodings). -/
def encApply (t : Transformer) (b : ByteBuf) : List ByteBuf :=
  match t.encodings with
  | some f => f b
  | none => []

/-- Is a needle's outermost layer (`transformers[0]`) non-reversible, i.e.
without `extractDecode`?  (`false` for the empty chain, where the TS
`transformers[0]!.extractDecode` access would be unreachable.) -/
def headNonReversible (n : Needle) : Bool :=
  match n.transformers.head? with
  | some t => !hasExtractDecode t
  | none => false

/-- One step of `#addEncodings` (everything before the recursion): build
the child needles of all admitted encoders, admit them through the
layer-parameterised checksum filter, select those to insert into the
search needle set per the terminal-layer policy, deduplicate against the
global needle-fingerprint set, insert, and update `minNeedleLength`.
Returns the updated searcher state, the updated layer map, the admitted
children (to recurse into) and the inserted children. -/
def addEncodingsStep (encoders : List Transformer)
    (endWithNonReversibleLayer : Bool) (needle : Needle)
    (maxExtraLayers : Nat) (addedNeedleChecksums : ChkMap)
    (s : SearcherState) :
    SearcherState × ChkMap × List (Needle × Nat) × List (Needle × Nat) :=
  let children :=
    (encoders.filter (fun t =>
      !(maxExtraLayers = 0 && endWithNonReversibleLayer &&
        hasExtractDecode t))).flatMap
      (fun t => (encApply t needle.buffer).map
        (fun b => ({ buffer := b, transformers := t :: needle.transformers },
                   crc32 b)))
  let adm := filterChecksumLayer (fun nc => nc.2) maxExtraLayers
    addedNeedleChecksums children
  let pol := if endWithNonReversibleLayer then
      adm.1.filter (fun nc => headNonReversible nc.1)
    else adm.1
  let ins := filterUniqBy pol s.needleChecksums (fun nc => nc.2)
  ({ s with
      needles := s.needles ++ (ins.1.map (fun nc => nc.1))
      needleChecksums := ins.2
      minNeedleLength := (ins.1.map (fun nc => nc.1.buffer.length)).foldl
        (fun acc len => optMin acc (some len)) s.minNeedleLength },
   adm.2, adm.1, ins.1)

/-- `#addEncodings`: the step above, then, if `maxExtraLayers > 0`, recurse
into every admitted child with `maxExtraLayers - 1` (children processed in
list order under the determinised schedule). -/
def addEncodings (encoders : List Transformer)
    (endWithNonReversibleLayer : Bool) :
    Nat → Needle → ChkMap → SearcherState → SearcherState × ChkMap
  | 0, needle, m, s =>
      let r := addEncodingsStep encoders endWithNonReversibleLayer needle 0 m s
      (r.1, r.2.1)
  | k + 1, needle, m, s =>
      let r := addEncodingsStep encoders endWithNonReversibleLayer needle
        (k + 1) m s
      (r.2.2.1).foldl
        (fun acc nc =>
          addEncodings encoders endWithNonReversibleLayer k nc.1 acc.2 acc.1)
        (r.1, r.2.1)

/-- `addValue(value, maxEncodeLayers, encoders, endWithNonReversibleLayer)`:
assert the value non-empty, append it to the values (deduplicated by
fingerprint), append the raw needle (deduplicated by fingerprint), update
`minNeedleLength`, and enumerate encodings when `maxEncodeLayers > 0`. -/
def addValue (s : SearcherState) (value : ByteBuf) (maxEncodeLayers : Nat)
    (encoders : List Transformer) (endWithNonReversibleLayer : Bool) :
    Except String SearcherState :=
  if value.length = 0 then .error "value cannot be empty"
  else
    let v := filterUniqBy [value] s.valueChecksums crc32
    let needle : Needle := { buffer := value, transformers := [] }
    let n := filterUniqBy [needle] s.needleChecksums
      (fun nd => crc32 nd.buffer)
    let s1 : SearcherState :=
      { values := s.values ++ v.1
        valueChecksums := v.2
        needles := s.needles ++ n.1
        needleChecksums := n.2
        minNeedleLength := optMin s.minNeedleLength (some value.length) }
    .ok (match maxEncodeLayers with
         | 0 => s1
         | k + 1 =>
             (addEncodings (encoders.filter hasEncodings)
               endWithNonReversibleLayer k needle [] s1).1)

/-- The literal scan of `#findValueImpl`: the chain of the first needle
whose buffer the haystack contains. -/
def literalScan (needles : List Needle) (haystack : ByteBuf) :
    Option (List Transformer) :=
  match needles with
  | [] => none
  | n :: rest =>
      if bufIncludes haystack n.buffer then some n.transformers
      else literalScan rest haystack

/-- Call `decoder.extractDecode!` (callers have filtered on
`hasExtractDecode`). -/
def decApply (t : Transformer) (b : ByteBuf) (minLen : Option Nat) :
    Except String (List ByteBuf) :=
  match t.extractDecode with
  | some f => f b minLen
  | none => .ok []

/-- Process the accepted candidates of one decoder branch: recurse into
each (depth first, threading the layer map), collecting the per-candidate
settlements. -/
def runChildren (recur : ByteBuf → ChkMap →
      (Except String (Option (List Transformer))) × ChkMap) :
    List ByteBuf → ChkMap →
      List (Except String (Option (List Transformer))) × ChkMap
  | [], m => ([], m)
  | c :: cs, m =>
      let r := recur c m
      let rest := runChildren recur cs r.2
      (r.1 :: rest.1, rest.2)

/-- One decoder branch of the race in `#findValueImpl`: collect
`decoder.extractDecode(haystack, minLen)` (a rejection settles the branch
with that error), filter the candidates through the layer-parameterised
checksum map, recurse into each accepted candidate, race the candidate
settlements (`r => !!r`), and prepend the decoder to a winning chain. -/
def runBranch (recur : ByteBuf → ChkMap →
      (Except String (Option (List Transformer))) × ChkMap)
    (decoder : Transformer) (haystack : ByteBuf) (minLen : Option Nat)
    (layer : Nat) (m : ChkMap) :
    (Except String (Option (List Transformer))) × ChkMap :=
  match decApply decoder haystack minLen with
  | .error e => (.error e, m)
  | .ok cs =>
      let acc := filterChecksumLayer crc32 layer m cs
      let rs := runChildren recur acc.1 acc.2
      (match raceWithCondition rs.1 (fun r => r.isSome) with
       | .error e => .error e
       | .ok (some (some chain)) => .ok (some (decoder :: chain))
       | .ok (some none) => .ok none
       | .ok none => .ok none, rs.2)

/-- All decoder branches, threading the layer map in decoder order (every
branch runs: `Promise.allSettled` settles them all). -/
def runBranches (recur : ByteBuf → ChkMap →
      (Except String (Option (List Transformer))) × ChkMap)
    (haystack : ByteBuf) (minLen : Option Nat) (layer : Nat) :
    List Transformer → ChkMap →
      List (Except String (Option (List Transformer))) × ChkMap
  | [], m => ([], m)
  | d :: ds, m =>
      let r := runBranch recur d haystack minLen layer m
      let rest := runBranches recur haystack minLen layer ds r.2
      (r.1 :: rest.1, rest.2)

/-- `#findValueImpl(haystack, maxDecodeLayers, decoders, minEncodedLength,
haystackChecksums)`: literal scan first; at depth 0 resolve null; otherwise
race the decoder branches and return the first settlement in order that is
an error or a non-null chain (`?? null`). -/
def findValueImpl (s : SearcherState) (decoders : List Transformer)
    (minLen : Option Nat) :
    Nat → ByteBuf → ChkMap →
      (Except String (Option (List Transformer))) × ChkMap
  | fuel, haystack, m =>
    match literalScan s.needles haystack with
    | some chain => (.ok (some chain), m)
    | none =>
        match fuel with
        | 0 => (.ok none, m)
        | k + 1 =>
            let rs := runBranches (fun c mm => findValueImpl s decoders minLen k c mm)
              haystack minLen (k + 1) decoders m
            (match raceWithCondition rs.1 (fun r => r.isSome) with
             | .error e => .error e
             | .ok (some r) => .ok r
             | .ok none => .ok none, rs.2)

/-- `minEncodedLength` as computed by `findValueIn`: the minimum of
`minNeedleLength` and, over the decompressing decoders, of the minimum
`compressedLength` over the values. -/
def computeMinLen (s : SearcherState) (decoders : List Transformer) :
    Option Nat :=
  ((decoders.filter (fun d => hasExtractDecode d && d.compressedLength.isSome)).map
    (fun d => s.values.foldl
      (fun acc v => optMin acc (some ((d.compressedLength.getD
        (fun _ => 0)) v))) none)).foldl optMin s.minNeedleLength

/-- `findValueIn(haystack, maxDecodeLayers, decoders)`: assert that a value
has been added, compute `minEncodedLength`, and run the recursive search
with the decoders filtered to those exposing `extractDecode`. -/
def findValueIn (s : SearcherState) (haystack : ByteBuf)
    (maxDecodeLayers : Nat) (decoders : List Transformer) :
    Except String (Option (List Transformer)) :=
  if s.values.length = 0 then .error "call addValue first"
  else
    (findValueImpl s (decoders.filter hasExtractDecode)
      (computeMinLen s decoders) maxDecodeLayers haystack []).1

/-! ## Specification-level predicates -/

/-- `EncodesTo chain v b`: buffer `b` arises from value `v` by applying the
chain's encoders outside-in, i.e. `b` is one of the candidates of the head
encoder applied to a buffer that the tail encodes `v` to.  The empty chain
encodes `v` to itself. -/
inductive EncodesTo : List Transformer → ByteBuf → ByteBuf → Prop
  | nil (v : ByteBuf) : EncodesTo [] v v
  | cons (t : Transformer) (ts : List Transformer) (v mid b : ByteBuf)
      (f : ByteBuf → List ByteBuf) :
      EncodesTo ts v mid → t.encodings = some f → b ∈ f mid →
      EncodesTo (t :: ts) v b

/-- `DecodePath minLen chain h h2`: some choice of decode candidates turns
`h` into `h2` by applying the chain's decoders in order (outermost first,
i.e. the head decoder is applied to `h` itself). -/
inductive DecodePath (minLen : Option Nat) :
    List Transformer → ByteBuf → ByteBuf → Prop
  | nil (h : ByteBuf) : DecodePath minLen [] h h
  | cons (d : Transformer) (ds : List Transformer) (h h1 h2 : ByteBuf)
      (f : ByteBuf → Option Nat → Except String (List ByteBuf))
      (cs : List ByteBuf) :
      d.extractDecode = some f → f h minLen = .ok cs → h1 ∈ cs →
      DecodePath minLen ds h1 h2 → DecodePath minLen (d :: ds) h h2

/-- The needle invariant (spec §3 invariant 1): every needle's chain,
applied outside-in to some value of the searcher, reproduces its buffer
for some choice of encoding candidates. -/
def NeedleInv (s : SearcherState) : Prop :=
  ∀ n ∈ s.needles, ∃ v ∈ s.values, EncodesTo n.transformers v n.buffer

/-- Intermediate soundness relation for `#findValueImpl`: `Sound s minLen h
chain` holds when `chain` is a decoder prefix leading from `h`, through
candidate buffers of the successive decoders, down to a buffer that
literally contains some needle whose chain is the rest of `chain`. -/
inductive Sound (s : SearcherState) (minLen : Option Nat) :
    ByteBuf → List Transformer → Prop
  | lit (h : ByteBuf) (n : Needle) : n ∈ s.needles →
      bufIncludes h n.buffer = true → Sound s minLen h n.transformers
  | step (d : Transformer) (h h1 : ByteBuf) (rest : List Transformer)
      (f : ByteBuf → Option Nat → Except String (List ByteBuf))
      (cs : List ByteBuf) :
      d.extractDecode = some f → f h minLen = .ok cs → h1 ∈ cs →
      Sound s minLen h1 rest → Sound s minLen h (d :: rest)

/-! ## Concrete fixtures -/

/-- A decoder whose `extractDecode` generator throws (`ValueTransformer` is
an open interface, so `findValueIn` may receive such a decoder). -/
def failingDecoder : Transformer :=
  { name := "failing"
    encodings := none
    extractDecode := some (fun _ _ => .error "decoder failure")
    compressedLength := none }

/-- Unwrap a successful `addValue` (total fallback for the model). -/
def getSearcher (r : Except String SearcherState) : SearcherState :=
  r.toOption.getD emptySearcher

/-- Searcher with the single value `'ab'` = `[97, 98]` and, via
`addValue('ab', 1, [hexTransform], false)`, the hex-encoded needle
`'6162'` = `[54, 49, 54, 50]`. -/
def hexDemoSearcher : SearcherState :=
  getSearcher (addValue emptySearcher [97, 98] 1 [hexTransform] false)

/-- Searcher with the single value `'a"b'` = `[97, 34, 98]` and no encoded
needles (`addValue` with `maxEncodeLayers = 0`). -/
def quoteDemoSearcher : SearcherState :=
  getSearcher (addValue emptySearcher [97, 34, 98] 0 [] true)

/-- Searcher with the single raw value `'ab'` = `[97, 98]` and no encoded
needles (`addValue('ab', 0)`). -/
def abSearcher : SearcherState :=
  getSearcher (addValue emptySearcher [97, 98] 0 [] true)

/-- The input `'["a","","b","\\"","c"]'` (ASCII) of the JSON-string
nested-quotes scenario. -/
def jsonDemoInput : ByteBuf :=
  [91, 34, 97, 34, 44, 34, 34, 44, 34, 98, 34, 44, 34, 92, 34, 34, 44,
   34, 99, 34, 93]

/-- The haystack `'22615c226222'` (ASCII) — the lowercase hex rendering of
the JSON string literal `'"a\"b"'`. -/
def quoteDemoHaystack : ByteBuf := [50, 50, 54, 49, 53, 99, 50, 50, 54, 50, 50, 50]

/-! ## Theorems: supporting lemmas -/

theorem utf8DecodeAux_ascii : ∀ (f : Nat) (l : ByteBuf), l.length ≤ f →
    (∀ b ∈ l, b < 0x80) → utf8DecodeAux f l = l := by
  intro f
  induction f with
  | zero =>
      intro l hf _
      rw [List.length_eq_zero.mp (Nat.le_zero.mp hf)]
      rfl
  | succ f ih =>
      intro l hf h
      match l with
      | [] => rfl
      | b :: rest =>
          have hb : b < 0x80 := h b (by simp)
          rw [utf8DecodeAux]
          simp [utf8Step, hb,
            ih rest (by simpa using hf) (fun x hx => h x (by simp [hx]))]

theorem utf8DecodeCU_ascii (l : ByteBuf) (h : ∀ b ∈ l, b < 0x80) :
    utf8DecodeCU l = l := utf8DecodeAux_ascii l.length l le_rfl h

theorem utf8EncodeAux_ascii : ∀ (f : Nat) (l : CUStr), l.length ≤ f →
    (∀ u ∈ l, u < 0x80) → utf8EncodeAux f l = l := by
  intro f
  induction f with
  | zero =>
      intro l hf _
      rw [List.length_eq_zero.mp (Nat.le_zero.mp hf)]
      rfl
  | succ f ih =>
      intro l hf h
      match l with
      | [] => rfl
      | u :: rest =>
          have hu : u < 0x80 := h u (by simp)
          rw [utf8EncodeAux]
          simp [utf16Step, hu,
            ih rest (by simpa using hf) (fun x hx => h x (by simp [hx]))]

theorem utf8EncodeCU_ascii (l : CUStr) (h : ∀ u ∈ l, u < 0x80) :
    utf8EncodeCU l = l := utf8EncodeAux_ascii l.length l le_rfl h

/-- A string all of whose characters satisfy `p` is one single run. -/
theorem splitRunsAux_all (p : Nat → Bool) : ∀ (f : Nat) (l : CUStr),
    l.length ≤ f → l ≠ [] → (∀ c ∈ l, p c = true) →
    splitRunsAux p f l = [l] := by
  intro f
  induction f with
  | zero =>
      intro l hf hne _
      exact absurd (List.length_eq_zero.mp (Nat.le_zero.mp hf)) hne
  | succ f _ =>
      intro l hf hne hall
      match l with
      | [] => exact absurd rfl hne
      | c :: rest =>
          rw [splitRunsAux]
          rw [if_pos (hall c (by simp))]
          have htk : rest.takeWhile p = rest :=
            List.takeWhile_eq_self_iff.mpr (fun x hx => hall x (by simp [hx]))
          have hdw : rest.dropWhile p = [] :=
            List.dropWhile_eq_nil_iff.mpr (fun x hx => hall x (by simp [hx]))
          rw [htk, hdw]
          match f with
          | 0 => rfl
          | _ + 1 => rfl

/-- A string all of whose characters satisfy `p` is one single run. -/
theorem splitRunsBy_all (p : Nat → Bool) (l : CUStr) (hne : l ≠ [])
    (hall : ∀ c ∈ l, p c = true) : splitRunsBy p l = [l] :=
  splitRunsAux_all p l.length l le_rfl hne hall

theorem filterChecksumLayer_subset {α : Type} (getChecksum : α → Nat)
    (thisLayer : Nat) : ∀ (l : List α) (m : ChkMap) (x : α),
    x ∈ (filterChecksumLayer getChecksum thisLayer m l).1 → x ∈ l := by
  intro l
  induction l with
  | nil => intro m x h; simp [filterChecksumLayer] at h
  | cons y ys ih =>
      intro m x h
      rw [filterChecksumLayer] at h
      by_cases hc : (checkChecksumLayer m thisLayer (getChecksum y)).1 <;>
        simp [hc] at h
      · rcases h with h | h
        · simp [h]
        · exact List.mem_cons_of_mem _ (ih _ _ h)
      · exact List.mem_cons_of_mem _ (ih _ _ h)

theorem raceWithCondition_ok_some {ε α : Type} (cond : α → Bool) :
    ∀ (tasks : List (Except ε α)) (v : α),
    raceWithCondition tasks cond = .ok (some v) →
    (Except.ok v) ∈ tasks ∧ cond v = true := by
  intro tasks
  induction tasks with
  | nil => intro v h; simp [raceWithCondition] at h
  | cons t rest ih =>
      intro v h
      match t with
      | .error e => rw [raceWithCondition] at h; simp at h
      | .ok w =>
          rw [raceWithCondition] at h
          by_cases hc : cond w
          · rw [if_pos hc] at h
            have : w = v := by simpa using h
            subst this
            exact ⟨by simp, hc⟩
          · rw [if_neg hc] at h
            have := ih v h
            exact ⟨List.mem_cons_of_mem _ this.1, this.2⟩

theorem runChildren_mem (recur : ByteBuf → ChkMap →
      (Except String (Option (List Transformer))) × ChkMap) :
    ∀ (cs : List ByteBuf) (m : ChkMap)
      (r : Except String (Option (List Transformer))),
    r ∈ (runChildren recur cs m).1 →
    ∃ c ∈ cs, ∃ m0, r = (recur c m0).1 := by
  intro cs
  induction cs with
  | nil => intro m r h; simp [runChildren] at h
  | cons c cs ih =>
      intro m r h
      rw [runChildren] at h
      rcases List.mem_cons.mp h with h | h
      · exact ⟨c, by simp, m, h⟩
      · rcases ih _ r h with ⟨c', hc', m0, hm0⟩
        exact ⟨c', List.mem_cons_of_mem _ hc', m0, hm0⟩

theorem runBranches_mem (recur : ByteBuf → ChkMap →
      (Except String (Option (List Transformer))) × ChkMap)
    (haystack : ByteBuf) (minLen : Option Nat) (layer : Nat) :
    ∀ (ds : List Transformer) (m : ChkMap)
      (r : Except String (Option (List Transformer))),
    r ∈ (runBranches recur haystack minLen layer ds m).1 →
    ∃ d ∈ ds, ∃ m0, r = (runBranch recur d haystack minLen layer m0).1 := by
  intro ds
  induction ds with
  | nil => intro m r h; simp [runBranches] at h
  | cons d ds ih =>
      intro m r h
      rw [runBranches] at h
      rcases List.mem_cons.mp h with h | h
      · exact ⟨d, by simp, m, h⟩
      · rcases ih _ r h with ⟨d', hd', m0, hm0⟩
        exact ⟨d', List.mem_cons_of_mem _ hd', m0, hm0⟩

theorem runBranch_ok_some (recur : ByteBuf → ChkMap →
      (Except String (Option (List Transformer))) × ChkMap)
    (d : Transformer) (haystack : ByteBuf) (minLen : Option Nat)
    (layer : Nat) (m : ChkMap) (chain : List Transformer)
    (h : (runBranch recur d haystack minLen layer m).1 = .ok (some chain)) :
    ∃ (f : ByteBuf → Option Nat → Except String (List ByteBuf))
      (cs : List ByteBuf) (c : ByteBuf) (m0 : ChkMap)
      (chain0 : List Transformer),
      d.extractDecode = some f ∧ f haystack minLen = .ok cs ∧ c ∈ cs ∧
      (recur c m0).1 = .ok (some chain0) ∧ chain = d :: chain0 := by
  rw [runBranch] at h
  match hd : decApply d haystack minLen with
  | .error e => rw [hd] at h; simp at h
  | .ok cs =>
      rw [hd] at h
      simp only at h
      match hr : raceWithCondition
          (runChildren recur
            (filterChecksumLayer crc32 layer m cs).1
            (filterChecksumLayer crc32 layer m cs).2).1
          (fun r => r.isSome) with
      | .error e => rw [hr] at h; simp at h
      | .ok none => rw [hr] at h; simp at h
      | .ok (some none) => rw [hr] at h; simp at h
      | .ok (some (some chain0)) =>
          rw [hr] at h
          simp only [Except.ok.injEq, Option.some.injEq] at h
          have hrace := raceWithCondition_ok_some _ _ _ hr
          rcases runChildren_mem recur _ _ _ hrace.1 with ⟨c, hc, m0, hm0⟩
          have hcs : c ∈ cs :=
            filterChecksumLayer_subset crc32 layer cs m c hc
          match he : d.extractDecode with
          | none =>
              rw [decApply, he] at hd
              have : cs = [] := by simpa using hd.symm
              subst this
              simp at hcs
          | some f =>
              refine ⟨f, cs, c, m0, chain0, rfl, ?_, hcs, hm0.symm, h.symm⟩
              rw [decApply, he] at hd
              exact hd

theorem literalScan_eq_some : ∀ (needles : List Needle) (h : ByteBuf)
    (chain : List Transformer), literalScan needles h = some chain →
    ∃ n ∈ needles, bufIncludes h n.buffer = true ∧ chain = n.transformers := by
  intro needles
  induction needles with
  | nil => intro h chain hh; simp [literalScan] at hh
  | cons n rest ih =>
      intro h chain hh
      rw [literalScan] at hh
      by_cases hb : bufIncludes h n.buffer
      · rw [if_pos hb] at hh
        exact ⟨n, by simp, hb, by simpa using hh.symm⟩
      · rw [if_neg hb] at hh
        rcases ih h chain hh with ⟨n', hn', hb', hc'⟩
        exact ⟨n', List.mem_cons_of_mem _ hn', hb', hc'⟩

theorem findValueImpl_sound (s : SearcherState)
    (decoders : List Transformer) (minLen : Option Nat) :
    ∀ (fuel : Nat) (h : ByteBuf) (m : ChkMap) (chain : List Transformer),
    (findValueImpl s decoders minLen fuel h m).1 = .ok (some chain) →
    Sound s minLen h chain := by
  intro fuel
  induction fuel with
  | zero =>
      intro h m chain hres
      rw [findValueImpl] at hres
      match hl : literalScan s.needles h with
      | some chain2 =>
          rw [hl] at hres
          simp only [Except.ok.injEq, Option.some.injEq] at hres
          rcases literalScan_eq_some _ _ _ hl with ⟨n, hn, hb, hc⟩
          rw [← hres, hc]
          exact Sound.lit h n hn hb
      | none => rw [hl] at hres; simp at hres
  | succ k ih =>
      intro h m chain hres
      rw [findValueImpl] at hres
      match hl : literalScan s.needles h with
      | some chain2 =>
          rw [hl] at hres
          simp only [Except.ok.injEq, Option.some.injEq] at hres
          rcases literalScan_eq_some _ _ _ hl with ⟨n, hn, hb, hc⟩
          rw [← hres, hc]
          exact Sound.lit h n hn hb
      | none =>
          rw [hl] at hres
          simp only at hres
          match hr : raceWithCondition
              (runBranches (fun c mm => findValueImpl s decoders minLen k c mm)
                h minLen (k + 1) decoders m).1 (fun r => r.isSome) with
          | .error e => rw [hr] at hres; simp at hres
          | .ok none => rw [hr] at hres; simp at hres
          | .ok (some r) =>
              rw [hr] at hres
              simp only [Except.ok.injEq] at hres
              subst hres
              have hrace := raceWithCondition_ok_some _ _ _ hr
              rcases runBranches_mem _ h minLen (k + 1) decoders m _ hrace.1
                with ⟨d, _, m0, hm0⟩
              rcases runBranch_ok_some _ d h minLen (k + 1) m0 chain hm0.symm
                with ⟨f, cs, c, m1, chain0, hf, happ, hcs, hrec, hchain⟩
              rw [hchain]
              exact Sound.step d h c chain0 f cs hf happ hcs
                (ih c m1 chain0 hrec)

theorem sound_decompose (s : SearcherState) (minLen : Option Nat) :
    ∀ (h : ByteBuf) (chain : List Transformer), Sound s minLen h chain →
    ∃ (j : Nat) (h2 : ByteBuf), j ≤ chain.length ∧
      DecodePath minLen (chain.take j) h h2 ∧
      ∃ n ∈ s.needles, n.transformers = chain.drop j ∧
        bufIncludes h2 n.buffer = true := by
  intro h chain hs
  induction hs with
  | lit h n hn hb =>
      exact ⟨0, h, by simp, DecodePath.nil h, n, hn, by simp, hb⟩
  | step d h h1 rest f cs hf happ hmem _ ih =>
      rcases ih with ⟨j, h2, hj, hpath, n, hn, hchain, hb⟩
      exact ⟨j + 1, h2, by simpa using Nat.succ_le_succ hj,
        DecodePath.cons d (rest.take j) h h1 h2 f cs hf happ hmem hpath,
        n, hn, by simpa using hchain, hb⟩

set_option maxRecDepth 10000

/-! ## C1: soundness of returned chains -/

/-- C1 (amended).  Soundness of returned chains: for every `findValueIn`
call that returns a non-null chain `c₁,...,cₖ` (outermost first), there are
a split point `j ≤ k`, a value `v` previously added, and a buffer `b` such
that some choice of decode candidates applies `c₁`'s decode to the
haystack, then `c₂`'s, ..., then `cⱼ`'s (outermost first), reaching a
buffer that contains `b` literally as a contiguous byte subsequence, where
`b` arises from `v` by some choice of encoding candidates of the encoder
chain `c_{j+1},...,cₖ` (the chain of a stored needle).  The amendment
versus the claim: the decoders apply outermost-first (the head `c₁` first,
not `cₖ` first), and the decode prefix stops at a needle — the chain's
tail is an encoder chain that need not be decodable at all. -/
theorem findValueIn_sound (s : SearcherState) (h : ByteBuf) (fuel : Nat)
    (decoders : List Transformer) (chain : List Transformer)
    (hinv : NeedleInv s)
    (hres : findValueIn s h fuel decoders = .ok (some chain)) :
    ∃ (j : Nat) (h2 b v : ByteBuf), j ≤ chain.length ∧
      DecodePath (computeMinLen s decoders) (chain.take j) h h2 ∧
      v ∈ s.values ∧ EncodesTo (chain.drop j) v b ∧
      bufIncludes h2 b = true := by
  rw [findValueIn] at hres
  by_cases hv : s.values.length = 0
  · rw [if_pos hv] at hres; simp at hres
  · rw [if_neg hv] at hres
    have hsound := findValueImpl_sound s (decoders.filter hasExtractDecode)
      (computeMinLen s decoders) fuel h [] chain hres
    rcases sound_decompose s (computeMinLen s decoders) h chain hsound with
      ⟨j, h2, hj, hpath, n, hn, hchain, hb⟩
    rcases hinv n hn with ⟨v, hvmem, henc⟩
    exact ⟨j, h2, n.buffer, v, hj, hpath, hvmem, hchain ▸ henc, hb⟩

/-- A searcher holding the single raw value `[97]`. -/
def witnessSearcher : SearcherState :=
  { values := [[97]]
    valueChecksums := [crc32 [97]]
    needles := [{ buffer := [97], transformers := [] }]
    needleChecksums := [crc32 [97]]
    minNeedleLength := some 1 }

theorem findValueIn_sound_witness :
    NeedleInv witnessSearcher ∧
    findValueIn witnessSearcher [97] 0 [] = .ok (some []) ∧
    ∃ (j : Nat) (h2 b v : ByteBuf), j ≤ ([] : List Transformer).length ∧
      DecodePath (computeMinLen witnessSearcher [])
        (([] : List Transformer).take j) [97] h2 ∧
      v ∈ witnessSearcher.values ∧
      EncodesTo (([] : List Transformer).drop j) v b ∧
      bufIncludes h2 b = true := by
  have hinv : NeedleInv witnessSearcher := by
    intro n hn
    have : n = { buffer := [97], transformers := [] } := by
      simpa [witnessSearcher] using hn
    subst this
    exact ⟨[97], by simp [witnessSearcher], EncodesTo.nil [97]⟩
  exact ⟨hinv, rfl,
    findValueIn_sound witnessSearcher [97] 0 [] [] hinv rfl⟩

/-- C1 counterexample.  With the value `'a"b'` and the haystack
`'22615c226222'` (the hex rendering of the JSON literal `'"a\\"b"'`),
`findValueIn` returns the chain `[hex, json-string]`, but applying the
decoders in the claimed order — `cₖ`'s decode first, i.e. `json-string`
applied to the haystack — yields no decode candidate at all (the haystack
contains no quote character), for any `minLength`; so no choice of decode
candidates in that order reaches a buffer containing the value. -/
theorem findValueIn_sound_claim_false :
    findValueIn quoteDemoSearcher quoteDemoHaystack 2
        [hexTransform, jsonStringTransform]
      = .ok (some [hexTransform, jsonStringTransform]) ∧
    ¬∃ (ml : Option Nat) (h2 v : ByteBuf), v ∈ quoteDemoSearcher.values ∧
      DecodePath ml [jsonStringTransform, hexTransform]
        quoteDemoHaystack h2 ∧ bufIncludes h2 v = true := by
  constructor
  · rfl
  · rintro ⟨ml, h2, v, _, hpath, _⟩
    cases hpath with
    | cons d ds h h1 h2 f cs hf happ hmem _ =>
        have hfeq : f = jsonExtractDecode := by
          have : some f = some jsonExtractDecode := hf.symm.trans rfl
          simpa using this
        subst hfeq
        have hmempty : jsonMatches (utf8DecodeCU quoteDemoHaystack) = [] := by
          rfl
        rw [jsonExtractDecode, hmempty] at happ
        simp only [List.filterMap_nil, Except.ok.injEq] at happ
        rw [← happ] at hmem
        simp at hmem

/-! ## C3: behaviour of the search at decode depth 0 -/

theorem literalScan_eq_none : ∀ (needles : List Needle) (h : ByteBuf),
    literalScan needles h = none ↔
    ∀ n ∈ needles, bufIncludes h n.buffer = false := by
  intro needles
  induction needles with
  | nil => intro h; simp [literalScan]
  | cons n rest ih =>
      intro h
      rw [literalScan]
      by_cases hb : bufIncludes h n.buffer
      · simp [hb]
      · simp only [if_neg hb, ih]
        constructor
        · intro hall n' hn'
          rcases List.mem_cons.mp hn' with h' | h'
          · subst h'; simpa using hb
          · exact hall n' h'
        · intro hall n' hn'
          exact hall n' (List.mem_cons_of_mem _ hn')

theorem findValueIn_zero (s : SearcherState) (h : ByteBuf)
    (decoders : List Transformer) (hv : ¬s.values.length = 0) :
    findValueIn s h 0 decoders = .ok (literalScan s.needles h) := by
  rw [findValueIn, if_neg hv, findValueImpl]
  match hl : literalScan s.needles h with
  | some chain => rfl
  | none => rfl

/-- C3 (amended).  At decode depth 0 `findValueIn` performs only the
literal needle scan, over all needles (raw and encoded): it returns the
chain of a needle whose buffer the haystack contains, and `null` exactly
when no needle's buffer is contained.  It returns `[]` only if the
haystack contains some added value (under the invariant that needles with
empty chains are added values); but a haystack containing no added value
can still produce a non-null, non-empty chain when it contains an encoded
needle — the claim's `otherwise it returns null` does not hold. -/
theorem findValueIn_depth_zero (s : SearcherState) (h : ByteBuf)
    (decoders : List Transformer) (hv : ¬s.values.length = 0)
    (hraw : ∀ n ∈ s.needles, n.transformers = [] → n.buffer ∈ s.values) :
    (findValueIn s h 0 decoders = .ok none ↔
      ∀ n ∈ s.needles, bufIncludes h n.buffer = false) ∧
    (∀ chain, findValueIn s h 0 decoders = .ok (some chain) →
      ∃ n ∈ s.needles, bufIncludes h n.buffer = true ∧
        chain = n.transformers) ∧
    (findValueIn s h 0 decoders = .ok (some []) →
      ∃ v ∈ s.values, bufIncludes h v = true) := by
  rw [findValueIn_zero s h decoders hv]
  refine ⟨?_, ?_, ?_⟩
  · rw [← literalScan_eq_none]
    constructor
    · intro he
      match hl : literalScan s.needles h with
      | none => rfl
      | some c => rw [hl] at he; simp at he
    · intro he; rw [he]
  · intro chain hc
    have : literalScan s.needles h = some chain := by simpa using hc
    exact literalScan_eq_some _ _ _ this
  · intro hc
    have : literalScan s.needles h = some [] := by simpa using hc
    rcases literalScan_eq_some _ _ _ this with ⟨n, hn, hb, hchain⟩
    exact ⟨n.buffer, hraw n hn hchain.symm, hb⟩

theorem findValueIn_depth_zero_witness :
    (¬(hexDemoSearcher.values.length = 0)) ∧
    (∀ n ∈ hexDemoSearcher.needles, n.transformers = [] →
      n.buffer ∈ hexDemoSearcher.values) ∧
    (findValueIn hexDemoSearcher [97, 98, 99] 0 [hexTransform] = .ok (some []) →
      ∃ v ∈ hexDemoSearcher.values, bufIncludes [97, 98, 99] v = true) := by
  have hv : ¬(hexDemoSearcher.values.length = 0) := by decide
  have hraw : ∀ n ∈ hexDemoSearcher.needles, n.transformers = [] →
      n.buffer ∈ hexDemoSearcher.values := by
    intro n hn
    have hs : hexDemoSearcher =
        { values := [[97, 98]]
          valueChecksums := [2659403885]
          needles := [{ buffer := [97, 98], transformers := [] },
            { buffer := [54, 49, 54, 50], transformers := [hexTransform] }]
          needleChecksums := [2422617907, 2659403885]
          minNeedleLength := some 2 } := by rfl
    rw [hs] at hn
    have : n = { buffer := [97, 98], transformers := [] } ∨
        n = { buffer := [54, 49, 54, 50], transformers := [hexTransform] } := by
      simpa using hn
    rcases this with h | h <;> subst h
    · intro _; decide
    · intro hc; simp at hc
  exact ⟨hv, hraw,
    (findValueIn_depth_zero hexDemoSearcher [97, 98, 99] [hexTransform]
      hv hraw).2.2⟩

/-- C3 counterexample.  The searcher holds the value `'ab'` and (via
`addValue('ab', 1, [hex], false)`) the hex-encoded needle `'6162'`.  The
haystack `'6162'` does not literally contain any added value, yet
`findValueIn(h, 0)` returns the non-null, non-empty chain `[hex]` — not
`null` as the claim states. -/
theorem findValueIn_depth_zero_claim_false :
    hexDemoSearcher.values = [[97, 98]] ∧
    bufIncludes [54, 49, 54, 50] [97, 98] = false ∧
    findValueIn hexDemoSearcher [54, 49, 54, 50] 0 [hexTransform]
      = .ok (some [hexTransform]) ∧
    Except.ok (some [hexTransform])
      ≠ (.ok none : Except String (Option (List Transformer))) ∧
    Except.ok (some [hexTransform])
      ≠ (.ok (some []) : Except String (Option (List Transformer))) := by
  refine ⟨rfl, by decide, rfl, by simp, by simp⟩

/-! ## C5: layer-parameterised memoisation -/

/-- C5.  The candidate filter of the decode recursion: a decoded candidate
`c` is accepted exactly when the layer-seen map has no entry for
`CRC32(c)` or records a layer strictly below the current one; on
acceptance the entry is set to the current layer, otherwise the map is
unchanged; and the stateful filter threads the updated map through the
remaining candidates (the accepted list is exactly what `#findValueImpl`
recurses into). -/
theorem checkChecksumLayer_spec (m : ChkMap) (layer : Nat) (c : ByteBuf)
    (cs : List ByteBuf) :
    ((checkChecksumLayer m layer (crc32 c)).1 = true ↔
      mapFind m (crc32 c) = none ∨
      ∃ p, mapFind m (crc32 c) = some p ∧ p < layer) ∧
    checkChecksumLayer m layer (crc32 c) =
      ((checkChecksumLayer m layer (crc32 c)).1,
       if (checkChecksumLayer m layer (crc32 c)).1 then
         mapInsert m (crc32 c) layer
       else m) ∧
    filterChecksumLayer crc32 layer m (c :: cs) =
      ((if (checkChecksumLayer m layer (crc32 c)).1 then
          c :: (filterChecksumLayer crc32 layer
            (checkChecksumLayer m layer (crc32 c)).2 cs).1
        else (filterChecksumLayer crc32 layer
            (checkChecksumLayer m layer (crc32 c)).2 cs).1),
       (filterChecksumLayer crc32 layer
         (checkChecksumLayer m layer (crc32 c)).2 cs).2) := by
  refine ⟨?_, ?_, rfl⟩
  · rw [checkChecksumLayer]
    match hf : mapFind m (crc32 c) with
    | none => simp
    | some p =>
        by_cases hp : layer > p
        · simp [hp]
        · simp [hp]
  · rw [checkChecksumLayer]
    match hf : mapFind m (crc32 c) with
    | none => simp
    | some p =>
        by_cases hp : layer > p
        · simp [hp]
        · simp [hp]

/-! ## C4: terminal-layer needle policy -/

theorem filterUniqBy_subset {α : Type} (f : α → Nat) :
    ∀ (l : List α) (seen : List Nat) (x : α),
    x ∈ (filterUniqBy l seen f).1 → x ∈ l := by
  intro l
  induction l with
  | nil => intro seen x h; simp [filterUniqBy] at h
  | cons z zs ih =>
      intro seen x h
      rw [filterUniqBy] at h
      by_cases hz : f z ∈ seen
      · rw [if_pos hz] at h
        exact List.mem_cons_of_mem _ (ih _ x h)
      · rw [if_neg hz] at h
        rcases List.mem_cons.mp h with h | h
        · simp [h]
        · exact List.mem_cons_of_mem _ (ih _ x h)

theorem filterUniqBy_mem {α : Type} (f : α → Nat) :
    ∀ (l : List α) (seen : List Nat) (x : α),
    x ∈ (filterUniqBy l seen f).1 ↔
    ∃ l1 l2, l = l1 ++ x :: l2 ∧ f x ∉ seen ∧ ∀ y ∈ l1, f y ≠ f x := by
  intro l
  induction l with
  | nil =>
      intro seen x
      constructor
      · intro h; simp [filterUniqBy] at h
      · intro ⟨l1, l2, he, _, _⟩; simp at he
  | cons z zs ih =>
      intro seen x
      rw [filterUniqBy]
      by_cases hz : f z ∈ seen
      · rw [if_pos hz, ih]
        constructor
        · intro ⟨l1, l2, he, hfx, hne⟩
          refine ⟨z :: l1, l2, by simp [he], hfx, ?_⟩
          intro y hy
          rcases List.mem_cons.mp hy with hy | hy
          · subst hy
            intro hc
            exact hfx (hc ▸ hz)
          · exact hne y hy
        · intro ⟨l1, l2, he, hfx, hne⟩
          match l1, he with
          | [], he =>
              have : z = x := by simpa using congrArg (·.head?) he
              exact absurd (this ▸ hz) hfx
          | w :: l1, he =>
              have hzw : z = w := by simpa using congrArg (·.head?) he
              refine ⟨l1, l2, ?_, hfx, fun y hy => hne y (by simp [hy])⟩
              simpa using congrArg (·.tail) he
      · rw [if_neg hz]
        simp only [List.mem_cons]
        constructor
        · intro h
          rcases h with h | h
          · exact ⟨[], zs, by simp [h], h ▸ hz, by simp⟩
          · rcases (ih _ x).mp h with ⟨l1, l2, he, hfx, hne⟩
            simp only [List.mem_cons, not_or] at hfx
            refine ⟨z :: l1, l2, by simp [he], hfx.2, ?_⟩
            intro y hy
            rcases List.mem_cons.mp hy with hy | hy
            · subst hy; exact fun hc => hfx.1 hc.symm
            · exact hne y hy
        · intro ⟨l1, l2, he, hfx, hne⟩
          match l1, he with
          | [], he =>
              left
              have : z = x := by simpa using congrArg (·.head?) he
              exact this.symm
          | w :: l1, he =>
              right
              have hzw : z = w := by simpa using congrArg (·.head?) he
              refine (ih _ x).mpr ⟨l1, l2, by simpa using congrArg (·.tail) he,
                ?_, fun y hy => hne y (by simp [hy])⟩
              simp only [List.mem_cons, not_or]
              exact ⟨fun hc => (hne w (by simp) (hzw ▸ hc.symm)), hfx⟩

/-- C4.  The terminal-layer needle policy of one `#addEncodings` step: the
needles appended to the search set are exactly the admitted children,
restricted — when `endWithNonReversibleLayer` is set — to those whose
outermost transformer does not expose `extractDecode`, deduplicated
against the global needle-fingerprint set (an admitted child is inserted
iff its checksum is not in the global set and it is the first among the
policy-selected children with that checksum). -/
theorem addEncodings_insertion (encoders : List Transformer) (ew : Bool)
    (needle : Needle) (mel : Nat) (m : ChkMap) (s : SearcherState) :
    (addEncodingsStep encoders ew needle mel m s).1.needles =
      s.needles ++
        ((addEncodingsStep encoders ew needle mel m s).2.2.2.map
          (fun nc => nc.1)) ∧
    (∀ x, x ∈ (addEncodingsStep encoders ew needle mel m s).2.2.2 ↔
      ∃ l1 l2,
        (if ew then
          ((addEncodingsStep encoders ew needle mel m s).2.2.1).filter
            (fun nc => headNonReversible nc.1)
        else (addEncodingsStep encoders ew needle mel m s).2.2.1)
          = l1 ++ x :: l2 ∧
        x.2 ∉ s.needleChecksums ∧ ∀ y ∈ l1, y.2 ≠ x.2) := by
  constructor
  · rfl
  · intro x
    exact filterUniqBy_mem (fun nc => nc.2) _ s.needleChecksums x

/-! ## C6: contract violations fail fast -/

/-- C6.  `addValue` with an empty value and `findValueIn` before any value
throw the descriptive programmer errors of the TS `assert` calls; since
the assertion is the first statement of either method, no state has been
mutated when it throws (the model returns the error without producing a
state), and the searcher stays usable: any non-empty value is accepted by
`addValue` afterwards. -/
theorem contract_violations :
    (∀ (s : SearcherState) (k : Nat) (enc : List Transformer) (ew : Bool),
      addValue s [] k enc ew = .error "value cannot be empty") ∧
    (∀ (s : SearcherState) (h : ByteBuf) (k : Nat)
        (d : List Transformer), s.values = [] →
      findValueIn s h k d = .error "call addValue first") ∧
    (∀ (s : SearcherState) (v : ByteBuf) (k : Nat)
        (enc : List Transformer) (ew : Bool), v ≠ [] →
      ∃ s2, addValue s v k enc ew = .ok s2) := by
  refine ⟨fun s k enc ew => rfl, ?_, ?_⟩
  · intro s h k d hv
    rw [findValueIn, if_pos (by simp [hv])]
  · intro s v k enc ew hv
    rw [addValue, if_neg (by simpa using hv)]
    exact ⟨_, rfl⟩

theorem contract_violations_witness :
    addValue emptySearcher [] 2 [] true = .error "value cannot be empty" ∧
    (emptySearcher.values = [] ∧
      findValueIn emptySearcher [97] 10 [] = .error "call addValue first") ∧
    (([97] : ByteBuf) ≠ [] ∧
      ∃ s2, addValue emptySearcher [97] 2 [] true = .ok s2) :=
  ⟨contract_violations.1 emptySearcher 2 [] true,
   ⟨rfl, contract_violations.2.1 emptySearcher [97] 10 [] rfl⟩,
   ⟨by simp, contract_violations.2.2 emptySearcher [97] 2 [] true (by simp)⟩⟩

/-! ## C7: decoder failures and the race -/

/-- C7 (amended).  `raceWithCondition` propagates task failures: when every
earlier task settles without passing the condition, a rejected task makes
the whole race reject with that error; the failure is ignored only when an
earlier task has already resolved with a passing (non-null) value.
Consequently a decoder that throws inside the decode race makes
`findValueIn` reject with that error (it is not converted into a null
branch): concretely, with only a throwing decoder and no literal match the
call returns the decoder's error. -/
theorem race_error_propagates :
    (∀ (ε α : Type) (cond : α → Bool) (ts1 : List (Except ε α)) (e : ε)
        (ts2 : List (Except ε α)),
      (∀ t ∈ ts1, ∃ v, t = .ok v ∧ cond v = false) →
      raceWithCondition (ts1 ++ .error e :: ts2) cond = .error e) ∧
    (∀ (ε α : Type) (cond : α → Bool) (ts1 : List (Except ε α)) (v : α)
        (ts2 : List (Except ε α)),
      (∀ t ∈ ts1, ∃ w, t = .ok w ∧ cond w = false) → cond v = true →
      raceWithCondition (ts1 ++ .ok v :: ts2) cond = .ok (some v)) ∧
    findValueIn abSearcher [122, 122] 1 [failingDecoder]
      = .error "decoder failure" := by
  refine ⟨?_, ?_, rfl⟩
  · intro ε α cond ts1 e ts2 hts
    induction ts1 with
    | nil => rfl
    | cons t rest ih =>
        rcases hts t (by simp) with ⟨v, hv, hcond⟩
        subst hv
        rw [List.cons_append, raceWithCondition, if_neg (by simp [hcond])]
        exact ih (fun t ht => hts t (List.mem_cons_of_mem _ ht))
  · intro ε α cond ts1 v ts2 hts hcond
    induction ts1 with
    | nil => rw [List.nil_append, raceWithCondition, if_pos hcond]
    | cons t rest ih =>
        rcases hts t (by simp) with ⟨w, hw, hcw⟩
        subst hw
        rw [List.cons_append, raceWithCondition, if_neg (by simp [hcw])]
        exact ih (fun t ht => hts t (List.mem_cons_of_mem _ ht))

theorem race_error_propagates_witness :
    ((∀ t ∈ ([.ok none] : List (Except String (Option Nat))),
        ∃ v, t = .ok v ∧ v.isSome = false) ∧
      raceWithCondition
        ([.ok none] ++ .error "decoder failure" :: [])
        (fun v : Option Nat => v.isSome) = .error "decoder failure") ∧
    ((∀ t ∈ ([] : List (Except String (Option Nat))),
        ∃ w, t = .ok w ∧ w.isSome = false) ∧
      (some 3 : Option Nat).isSome = true ∧
      raceWithCondition ([] ++ .ok (some 3) :: [.error "x"])
        (fun v : Option Nat => v.isSome) = .ok (some (some 3))) := by
  constructor
  · refine ⟨?_, ?_⟩
    · intro t ht
      exact ⟨none, by simpa using ht, rfl⟩
    · exact race_error_propagates.1 String (Option Nat) (fun v => v.isSome)
        [.ok none] "decoder failure" []
        (fun t ht => ⟨none, by simpa using ht, rfl⟩)
  · refine ⟨by simp, rfl, ?_⟩
    exact race_error_propagates.2.1 String (Option Nat) (fun v => v.isSome)
      [] (some 3) [.error "x"] (by simp) rfl

/-- C7 counterexample.  With a decoder whose generator throws and no
literal match, `findValueIn` rejects with the decoder's error instead of
resolving the branch to null: the overall result is the error, not the
`null` the claim requires (`raceWithCondition` calls `reject(err)` for a
failed task, so the failure surfaces as the result of the race). -/
theorem race_error_claim_false :
    findValueIn abSearcher [122, 122] 1 [failingDecoder]
      = .error "decoder failure" ∧
    findValueIn abSearcher [122, 122] 1 [failingDecoder]
      ≠ .ok none ∧
    findValueIn abSearcher [122, 122] 1 [failingDecoder]
      ≠ .ok (some []) := by
  have he : findValueIn abSearcher [122, 122] 1 [failingDecoder]
      = .error "decoder failure" := rfl
  refine ⟨he, ?_, ?_⟩ <;> rw [he] <;> simp

/-! ## C10: re-adding an already-seen value -/

theorem addEncodingsStep_adm_chains (encoders : List Transformer) (ew : Bool)
    (needle : Needle) (mel : Nat) (m : ChkMap) (s : SearcherState)
    (x : Needle × Nat)
    (hx : x ∈ (addEncodingsStep encoders ew needle mel m s).2.2.1) :
    x.1.transformers ≠ [] := by
  have hx2 : x ∈ (filterChecksumLayer (fun nc => nc.2) mel m
      ((encoders.filter (fun t =>
        !(mel = 0 && ew && hasExtractDecode t))).flatMap
        (fun t => (encApply t needle.buffer).map
          (fun b => ({ buffer := b, transformers := t :: needle.transformers },
                     crc32 b))))).1 := hx
  have hch := filterChecksumLayer_subset (fun nc => nc.2) mel _ _ x hx2
  rcases List.mem_flatMap.mp hch with ⟨t, _, hxt⟩
  rcases List.mem_map.mp hxt with ⟨b, _, hb⟩
  rw [← hb]
  simp

theorem addEncodingsStep_ins_chains (encoders : List Transformer) (ew : Bool)
    (needle : Needle) (mel : Nat) (m : ChkMap) (s : SearcherState)
    (x : Needle × Nat)
    (hx : x ∈ (addEncodingsStep encoders ew needle mel m s).2.2.2) :
    x.1.transformers ≠ [] := by
  have hx2 : x ∈ (filterUniqBy
      (if ew then
        (filterChecksumLayer (fun nc => nc.2) mel m
          ((encoders.filter (fun t =>
            !(mel = 0 && ew && hasExtractDecode t))).flatMap
            (fun t => (encApply t needle.buffer).map
              (fun b => ({ buffer := b,
                           transformers := t :: needle.transformers },
                         crc32 b))))).1.filter
          (fun nc => headNonReversible nc.1)
       else
        (filterChecksumLayer (fun nc => nc.2) mel m
          ((encoders.filter (fun t =>
            !(mel = 0 && ew && hasExtractDecode t))).flatMap
            (fun t => (encApply t needle.buffer).map
              (fun b => ({ buffer := b,
                           transformers := t :: needle.transformers },
                         crc32 b))))).1)
      s.needleChecksums (fun nc => nc.2)).1 := hx
  have hpol := filterUniqBy_subset (fun nc => nc.2) _ s.needleChecksums x hx2
  refine addEncodingsStep_adm_chains encoders ew needle mel m s x ?_
  show x ∈ (filterChecksumLayer (fun nc => nc.2) mel m
    ((encoders.filter (fun t =>
      !(mel = 0 && ew && hasExtractDecode t))).flatMap
      (fun t => (encApply t needle.buffer).map
        (fun b => ({ buffer := b, transformers := t :: needle.transformers },
                   crc32 b))))).1
  by_cases hew : ew
  · rw [if_pos hew] at hpol
    exact List.mem_of_mem_filter hpol
  · rw [if_neg hew] at hpol
    exact hpol

theorem addEncodings_chains (encoders : List Transformer) (ew : Bool) :
    ∀ (k : Nat) (needle : Needle) (m : ChkMap) (s : SearcherState)
      (n : Needle),
    n ∈ (addEncodings encoders ew k needle m s).1.needles →
    n ∈ s.needles ∨ n.transformers ≠ [] := by
  intro k
  induction k with
  | zero =>
      intro needle m s n hn
      rw [addEncodings] at hn
      rcases List.mem_append.mp hn with h | h
      · exact Or.inl h
      · rcases List.mem_map.mp h with ⟨nc, hnc, hmap⟩
        exact Or.inr (hmap ▸
          addEncodingsStep_ins_chains encoders ew needle 0 m s nc hnc)
  | succ k ih =>
      intro needle m s n hn
      rw [addEncodings] at hn
      have hfold : ∀ (l : List (Needle × Nat)) (acc : SearcherState × ChkMap),
          (∀ n2 ∈ acc.1.needles, n2 ∈ s.needles ∨ n2.transformers ≠ []) →
          ∀ n2 ∈ (l.foldl (fun acc nc =>
              addEncodings encoders ew k nc.1 acc.2 acc.1) acc).1.needles,
            n2 ∈ s.needles ∨ n2.transformers ≠ [] := by
        intro l
        induction l with
        | nil => intro acc hacc; exact hacc
        | cons nc rest ihl =>
            intro acc hacc
            rw [List.foldl_cons]
            refine ihl _ ?_
            intro n2 hn2
            rcases ih nc.1 acc.2 acc.1 n2 hn2 with h | h
            · exact hacc n2 h
            · exact Or.inr h
      refine hfold _ _ ?_ n hn
      intro n2 hn2
      rcases List.mem_append.mp hn2 with h | h
      · exact Or.inl h
      · rcases List.mem_map.mp h with ⟨nc, hnc, hmap⟩
        exact Or.inr (hmap ▸
          addEncodingsStep_ins_chains encoders ew needle (k + 1) m s nc hnc)

theorem addEncodings_values (encoders : List Transformer) (ew : Bool) :
    ∀ (k : Nat) (needle : Needle) (m : ChkMap) (s : SearcherState),
    (addEncodings encoders ew k needle m s).1.values = s.values := by
  intro k
  induction k with
  | zero => intro needle m s; rfl
  | succ k ih =>
      intro needle m s
      have hfold : ∀ (l : List (Needle × Nat)) (acc : SearcherState × ChkMap),
          (l.foldl (fun acc nc =>
            addEncodings encoders ew k nc.1 acc.2 acc.1) acc).1.values
            = acc.1.values := by
        intro l
        induction l with
        | nil => intro acc; rfl
        | cons nc rest ihl =>
            intro acc
            rw [List.foldl_cons, ihl]
            exact ih nc.1 acc.2 acc.1
      exact (hfold ((addEncodingsStep encoders ew needle (k + 1) m s).2.2.1)
        ((addEncodingsStep encoders ew needle (k + 1) m s).1,
         (addEncodingsStep encoders ew needle (k + 1) m s).2.1)).trans rfl

/-- C10.  `addValue` with a value whose CRC32 is already known: the value
is not appended to the values list again and the raw needle is not
re-added (every appended needle carries a non-empty chain), but the
encoding enumeration still runs with the encoder list and depth of this
call, so a re-add with another encoder set or a larger depth can insert
new encoded needles — concretely, re-adding `'ab'` with `[hex]` and depth
1 grows the needle list from one to two. -/
theorem addValue_seen_value :
    (∀ (s : SearcherState) (v : ByteBuf) (k : Nat)
        (enc : List Transformer) (ew : Bool),
      v ≠ [] → crc32 v ∈ s.valueChecksums → crc32 v ∈ s.needleChecksums →
      ∃ s2, addValue s v k enc ew = .ok s2 ∧
        s2.values = s.values ∧
        (∀ n ∈ s2.needles, n ∈ s.needles ∨ n.transformers ≠ []) ∧
        (∀ k2, k = k2 + 1 →
          s2 = (addEncodings (enc.filter hasEncodings) ew k2
            { buffer := v, transformers := [] } []
            { s with minNeedleLength :=
                optMin s.minNeedleLength (some v.length) }).1)) ∧
    abSearcher.needles.length = 1 ∧
    (getSearcher (addValue abSearcher [97, 98] 1 [hexTransform]
      false)).needles.length = 2 := by
  refine ⟨?_, rfl, rfl⟩
  intro s v k enc ew hv hvc hnc
  have hv0 : filterUniqBy [v] s.valueChecksums crc32
      = ([], s.valueChecksums) := by
    simp [filterUniqBy, hvc]
  have hn0 : filterUniqBy [({ buffer := v, transformers := [] } : Needle)]
      s.needleChecksums (fun nd => crc32 nd.buffer)
      = ([], s.needleChecksums) := by
    simp [filterUniqBy, hnc]
  rw [addValue, if_neg (by simpa using hv)]
  simp only [hv0, hn0, List.append_nil]
  match k with
  | 0 =>
      refine ⟨_, rfl, rfl, fun n hn => Or.inl hn, fun k2 hk => by simp at hk⟩
  | k2 + 1 =>
      refine ⟨_, rfl, ?_, ?_, ?_⟩
      · exact (addEncodings_values (enc.filter hasEncodings) ew k2
          { buffer := v, transformers := [] } []
          { s with minNeedleLength :=
              optMin s.minNeedleLength (some v.length) }).trans rfl
      · intro n hn
        exact addEncodings_chains (enc.filter hasEncodings) ew k2
          { buffer := v, transformers := [] } []
          { s with minNeedleLength :=
              optMin s.minNeedleLength (some v.length) } n hn
      · intro k3 hk
        have : k2 = k3 := by omega
        subst this
        rfl

theorem addValue_seen_value_witness :
    (([97, 98] : ByteBuf) ≠ [] ∧
      crc32 [97, 98] ∈ abSearcher.valueChecksums ∧
      crc32 [97, 98] ∈ abSearcher.needleChecksums) ∧
    ∃ s2, addValue abSearcher [97, 98] 1 [hexTransform] false = .ok s2 ∧
      s2.values = abSearcher.values ∧
      (∀ n ∈ s2.needles, n ∈ abSearcher.needles ∨ n.transformers ≠ []) ∧
      (∀ k2, 1 = k2 + 1 →
        s2 = (addEncodings ([hexTransform].filter hasEncodings) false k2
          { buffer := [97, 98], transformers := [] } []
          { abSearcher with
            minNeedleLength := optMin abSearcher.minNeedleLength (some 2) }).1) :=
  ⟨⟨by simp, by decide, by decide⟩,
   addValue_seen_value.1 abSearcher [97, 98] 1 [hexTransform] false
     (by simp) (by decide) (by decide)⟩

/-! ## C9: JSON-string decoder on nested and empty strings -/

/-- C9.  The json-string matcher accepts the empty string `""` as a match
(so neighbouring strings are matched correctly), and `extractDecode` on
`["a","","b","\"","c"]` with `minLength` 1 yields exactly the four decoded
buffers `a`, `b`, `"`, `c` (the bare `""` match is dropped by the
`length > 2` output filter). -/
theorem jsonString_empty_and_nested :
    jsonMatches (utf8DecodeCU jsonDemoInput) =
      [[34, 97, 34], [34, 34], [34, 98, 34], [34, 92, 34, 34],
       [34, 99, 34]] ∧
    ([34, 34] : CUStr) ∈ jsonMatches (utf8DecodeCU jsonDemoInput) ∧
    jsonExtractDecode jsonDemoInput (some 1) =
      .ok [[97], [98], [34], [99]] := by
  refine ⟨rfl, by decide, rfl⟩

/-! ## C8: base64 tail-bit recovery -/

/-- C8.  Tail-bit recovery of `Base64Transform#extractDecode`: for every
token whose length mod 4 is non-zero the repair computes
`bitsDropped = (len * 6) mod 8` and appends the all-zero digit `'A'` (65)
exactly when the final digit has one of its low `bitsDropped` bits set
(`decodeChar` index mod `2 ^ bitsDropped` non-zero; a character outside
the alphabet, JS `indexOf` `-1`, counts as set) or `len mod 4 = 1`;
tokens of length a multiple of 4 are left unchanged.  With the standard
padded dialect, decoding `"A==="` yields the single byte `0x00` and
decoding `"/==="` yields `0xFC`. -/
theorem base64_tail_bit_recovery :
    (∀ (d : B64Dialect) (m : CUStr), m.length % 4 ≠ 0 →
      (b64Repair d m = m ++ [65] ↔
        ((match (alphabet62 ++ [d.d62, d.d63] ++ d.pad.toList).findIdx?
            (fun c => c = m.getLastD 0) with
          | some i => i % 2 ^ (m.length * 6 % 8) ≠ 0
          | none => True) ∨ m.length % 4 = 1))) ∧
    (∀ (d : B64Dialect) (m : CUStr), m.length % 4 = 0 →
      b64Repair d m = m) ∧
    b64ExtractDecode [b64PaddedDialect] [65, 61, 61, 61] (some 0)
      = .ok [[0]] ∧
    b64ExtractDecode [b64PaddedDialect] [47, 61, 61, 61] (some 0)
      = .ok [[252]] := by
  refine ⟨?_, ?_, rfl, rfl⟩
  · intro d m hm4
    rw [b64Repair, if_neg hm4]
    have hov : b64Overflow d (m.length * 6 % 8) (m.getLastD 0) = true ↔
        (match (alphabet62 ++ [d.d62, d.d63] ++ d.pad.toList).findIdx?
            (fun c => c = m.getLastD 0) with
          | some i => i % 2 ^ (m.length * 6 % 8) ≠ 0
          | none => True) := by
      rw [b64Overflow]
      match hf : (alphabet62 ++ [d.d62, d.d63] ++ d.pad.toList).findIdx?
          (fun c => c = m.getLastD 0) with
      | some i =>
          simp only [Nat.and_pow_two_sub_one_eq_mod]
          simp
      | none => simp
    by_cases hc : b64Overflow d (m.length * 6 % 8) (m.getLastD 0)
        || m.length % 4 = 1
    · rw [if_pos hc]
      simp only [Bool.or_eq_true, decide_eq_true_eq] at hc
      constructor
      · intro _
        rcases hc with hc | hc
        · exact Or.inl (hov.mp hc)
        · exact Or.inr hc
      · intro _; rfl
    · rw [if_neg hc]
      simp only [Bool.or_eq_true, decide_eq_true_eq, not_or] at hc
      constructor
      · intro habs
        have : m.length = m.length + 1 := by
          simpa using congrArg List.length habs
        omega
      · intro h
        rcases h with h | h
        · exact absurd (hov.mpr h) (by simpa using hc.1)
        · exact absurd h hc.2
  · intro d m hm4
    rw [b64Repair, if_pos hm4]

/-! ## C2: codec round trips -/

theorem hexDigitL_facts : ∀ x, x < 16 →
    hexDigitL x < 128 ∧ lowerHexChar (hexDigitL x) = true ∧
    wordChar (hexDigitL x) = true ∧ hexVal (hexDigitL x) = x := by decide

theorem hexEnc_length : ∀ v : ByteBuf,
    (v.flatMap (fun b => [hexDigitL (b / 16), hexDigitL (b % 16)])).length
      = 2 * v.length := by
  intro v
  induction v with
  | nil => rfl
  | cons b rest ih => simp [ih]; omega

theorem hexDecodePairs_enc : ∀ v : ByteBuf, (∀ b ∈ v, b < 256) →
    hexDecodePairs
      (v.flatMap (fun b => [hexDigitL (b / 16), hexDigitL (b % 16)])) = v := by
  intro v
  induction v with
  | nil => intro _; rfl
  | cons b rest ih =>
      intro hb
      have hblt : b < 256 := hb b (by simp)
      rw [List.flatMap_cons, List.cons_append, List.cons_append,
        List.nil_append, hexDecodePairs,
        ih (fun x hx => hb x (by simp [hx]))]
      have h1 := (hexDigitL_facts (b / 16) (by omega)).2.2.2
      have h2 := (hexDigitL_facts (b % 16) (by omega)).2.2.2
      rw [h1, h2]
      have : b / 16 * 16 + b % 16 = b := by omega
      rw [this]

theorem hexEnc_chars : ∀ (v : ByteBuf), (∀ b ∈ v, b < 256) →
    ∀ c ∈ v.flatMap (fun b => [hexDigitL (b / 16), hexDigitL (b % 16)]),
      ∃ x, x < 16 ∧ c = hexDigitL x := by
  intro v hv c hc
  rcases List.mem_flatMap.mp hc with ⟨b, hb, hcb⟩
  have hblt : b < 256 := hv b hb
  rcases List.mem_cons.mp hcb with h | h
  · exact ⟨b / 16, by omega, h⟩
  · exact ⟨b % 16, by omega, by simpa using h⟩

theorem hex_roundTrip (v : ByteBuf) (hne : v ≠ []) (hb : ∀ b ∈ v, b < 256) :
    ∃ e ∈ hexEncodings v, ∃ r, hexExtractDecode e (some 0) = .ok r ∧
      v ∈ r := by
  set e := v.flatMap (fun b => [hexDigitL (b / 16), hexDigitL (b % 16)])
    with he_def
  have hchars := hexEnc_chars v hb
  have he_mem : e ∈ hexEncodings v := by
    rw [hexEncodings]
    simp only [hexEncodings.v]
    exact List.mem_cons_self _ _
  have he_ne : e ≠ [] := by
    match v, hne with
    | b :: rest, _ => simp [he_def]
  have hascii : ∀ c ∈ e, c < 128 := by
    intro c hc
    rcases hchars c hc with ⟨x, hx, hcx⟩
    exact hcx ▸ (hexDigitL_facts x hx).1
  have hdec : utf8DecodeCU e = e := utf8DecodeCU_ascii e hascii
  have hword : ∀ c ∈ e, wordChar c = true := by
    intro c hc
    rcases hchars c hc with ⟨x, hx, hcx⟩
    exact hcx ▸ (hexDigitL_facts x hx).2.2.1
  have hlower : e.all lowerHexChar = true := by
    rw [List.all_eq_true]
    intro c hc
    rcases hchars c hc with ⟨x, hx, hcx⟩
    exact hcx ▸ (hexDigitL_facts x hx).2.1
  have hmatches : hexMatches e = [e] := by
    rw [hexMatches, splitRunsBy_all wordChar e he_ne hword]
    rw [List.filter_cons]
    rw [if_pos (by
      rw [hexEnc_length, hlower]
      simp [Nat.mul_mod_right])]
    rfl
  refine ⟨e, he_mem, [hexDecodePairs e], ?_, ?_⟩
  · rw [hexExtractDecode, hdec, hmatches]
    simp [minLenLe]
  · rw [he_def, hexDecodePairs_enc v hb]
    exact List.mem_singleton.mpr rfl

theorem flatMap_singleton_eq {α : Type} (f : α → List α) :
    ∀ l : List α, (∀ a ∈ l, f a = [a]) → l.flatMap f = l := by
  intro l
  induction l with
  | nil => intro _; rfl
  | cons a rest ih =>
      intro h
      rw [List.flatMap_cons, h a (by simp),
        ih (fun x hx => h x (by simp [hx]))]
      rfl

theorem flatMap_nil_eq {α β : Type} (f : α → List β) :
    ∀ l : List α, (∀ a ∈ l, f a = []) → l.flatMap f = [] := by
  intro l
  induction l with
  | nil => intro _; rfl
  | cons a rest ih =>
      intro h
      rw [List.flatMap_cons, h a (by simp),
        ih (fun x hx => h x (by simp [hx]))]
      rfl

theorem filterMap_some_eq {α : Type} (f : α → Option α) :
    ∀ l : List α, (∀ a ∈ l, f a = some a) → l.filterMap f = l := by
  intro l
  induction l with
  | nil => intro _; rfl
  | cons a rest ih =>
      intro h
      rw [List.filterMap_cons, h a (by simp),
        ih (fun x hx => h x (by simp [hx]))]

theorem b64DigitChar_facts : ∀ d, d < 64 →
    b64DigitChar d < 128 ∧
    b64ClassD b64NonPaddedDialect (b64DigitChar d) = true ∧
    b64DigitChar d ≠ 13 ∧ b64DigitChar d ≠ 10 ∧
    stdDigitVal (b64DigitChar d) = some d ∧
    (alphabet62 ++ [43, 47]).findIdx? (fun c => c = b64DigitChar d)
      = some d ∧
    (if b64DigitChar d = 43 then [43]
     else if b64DigitChar d = 47 then [47]
     else if b64DigitChar d = 61 then []
     else [b64DigitChar d]) = [b64DigitChar d] := by decide

theorem b64DigitsOfBytes_lt : ∀ v : ByteBuf, (∀ b ∈ v, b < 256) →
    ∀ d ∈ b64DigitsOfBytes v, d < 64 := by
  intro v
  induction v using b64DigitsOfBytes.induct with
  | case1 => intro _ d hd; simp [b64DigitsOfBytes] at hd
  | case2 b1 =>
      intro hb d hd
      have h1 : b1 < 256 := hb b1 (by simp)
      rw [b64DigitsOfBytes] at hd
      rcases List.mem_cons.mp hd with h | h
      · omega
      · rcases List.mem_singleton.mp h with h
        omega
  | case3 b1 b2 =>
      intro hb d hd
      have h1 : b1 < 256 := hb b1 (by simp)
      have h2 : b2 < 256 := hb b2 (by simp)
      rw [b64DigitsOfBytes] at hd
      rcases List.mem_cons.mp hd with h | h
      · omega
      rcases List.mem_cons.mp h with h | h
      · omega
      rcases List.mem_singleton.mp h with h
      omega
  | case4 b1 b2 b3 rest ih =>
      intro hb d hd
      have h1 : b1 < 256 := hb b1 (by simp)
      have h2 : b2 < 256 := hb b2 (by simp)
      have h3 : b3 < 256 := hb b3 (by simp)
      rw [b64DigitsOfBytes] at hd
      rcases List.mem_cons.mp hd with h | h
      · omega
      rcases List.mem_cons.mp h with h | h
      · omega
      rcases List.mem_cons.mp h with h | h
      · omega
      rcases List.mem_cons.mp h with h | h
      · omega
      exact ih (fun x hx => hb x (by simp [hx])) d h

theorem b64DigitsOfBytes_eq_nil : ∀ v : ByteBuf,
    b64DigitsOfBytes v = [] ↔ v = [] := by
  intro v
  match v with
  | [] => simp [b64DigitsOfBytes]
  | [b1] => simp [b64DigitsOfBytes]
  | [b1, b2] => simp [b64DigitsOfBytes]
  | b1 :: b2 :: b3 :: rest => simp [b64DigitsOfBytes]

theorem b64_tail_ok : ∀ v : ByteBuf, (∀ b ∈ v, b < 256) →
    (b64DigitsOfBytes v).length % 4 = 0 ∨
    ((b64DigitsOfBytes v).length % 4 ≠ 1 ∧
      ∃ dl, (b64DigitsOfBytes v).getLast? = some dl ∧
        dl % 2 ^ ((b64DigitsOfBytes v).length * 6 % 8) = 0) := by
  intro v
  induction v using b64DigitsOfBytes.induct with
  | case1 => intro _; left; rfl
  | case2 b1 =>
      intro hb
      right
      rw [b64DigitsOfBytes]
      refine ⟨by simp, b1 % 4 * 16, by simp, ?_⟩
      have h2 : ([b1 / 4, b1 % 4 * 16] : List Nat).length * 6 % 8 = 4 := by
        simp
      rw [h2, show (2 : Nat) ^ 4 = 16 by norm_num]
      omega
  | case3 b1 b2 =>
      intro hb
      right
      rw [b64DigitsOfBytes]
      refine ⟨by simp, b2 % 16 * 4, by simp, ?_⟩
      have h2 : ([b1 / 4, b1 % 4 * 16 + b2 / 16, b2 % 16 * 4]
          : List Nat).length * 6 % 8 = 2 := by simp
      rw [h2, show (2 : Nat) ^ 2 = 4 by norm_num]
      omega
  | case4 b1 b2 b3 rest ih =>
      intro hb
      rw [b64DigitsOfBytes]
      match hr : b64DigitsOfBytes rest with
      | [] => left; simp
      | d0 :: drest =>
          rcases ih (fun x hx => hb x (by simp [hx])) with h | ⟨h1, dl, hl, hm⟩
          · left
            rw [hr] at h
            simp only [List.length_cons] at h ⊢
            omega
          · right
            rw [hr] at h1 hl hm
            simp only [List.length_cons] at h1 hm ⊢
            refine ⟨by omega, dl, by simpa using hl, ?_⟩
            have hbits : (drest.length + 1 + 1 + 1 + 1 + 1) * 6 % 8
                = (drest.length + 1) * 6 % 8 := by omega
            rw [hbits]
            exact hm

theorem b64BytesOfDigits_enc : ∀ v : ByteBuf, (∀ b ∈ v, b < 256) →
    b64BytesOfDigits (b64DigitsOfBytes v) = v := by
  intro v
  induction v using b64DigitsOfBytes.induct with
  | case1 => intro _; rfl
  | case2 b1 =>
      intro hb
      have h1 : b1 < 256 := hb b1 (by simp)
      rw [b64DigitsOfBytes, b64BytesOfDigits]
      have : b1 / 4 * 4 + b1 % 4 * 16 / 16 = b1 := by omega
      rw [this]
  | case3 b1 b2 =>
      intro hb
      have h1 : b1 < 256 := hb b1 (by simp)
      have h2 : b2 < 256 := hb b2 (by simp)
      rw [b64DigitsOfBytes, b64BytesOfDigits]
      have e1 : b1 / 4 * 4 + (b1 % 4 * 16 + b2 / 16) / 16 = b1 := by omega
      have e2 : (b1 % 4 * 16 + b2 / 16) % 16 * 16 + b2 % 16 * 4 / 4 = b2 := by
        omega
      rw [e1, e2]
  | case4 b1 b2 b3 rest ih =>
      intro hb
      have h1 : b1 < 256 := hb b1 (by simp)
      have h2 : b2 < 256 := hb b2 (by simp)
      have h3 : b3 < 256 := hb b3 (by simp)
      rw [b64DigitsOfBytes, b64BytesOfDigits,
        ih (fun x hx => hb x (by simp [hx]))]
      have e1 : b1 / 4 * 4 + (b1 % 4 * 16 + b2 / 16) / 16 = b1 := by omega
      have e2 : (b1 % 4 * 16 + b2 / 16) % 16 * 16 +
          (b2 % 16 * 4 + b3 / 64) / 4 = b2 := by omega
      have e3 : (b2 % 16 * 4 + b3 / 64) % 4 * 64 + b3 % 64 = b3 := by omega
      rw [e1, e2, e3]

theorem b64ApplyDialect_nonPadded (v : ByteBuf) (hb : ∀ b ∈ v, b < 256) :
    b64ApplyDialect b64NonPaddedDialect (b64StdString v)
      = (b64DigitsOfBytes v).map b64DigitChar := by
  rw [b64StdString, b64ApplyDialect, List.flatMap_append]
  have hd : ((b64DigitsOfBytes v).map b64DigitChar).flatMap (fun c =>
      if c = 43 then [b64NonPaddedDialect.d62]
      else if c = 47 then [b64NonPaddedDialect.d63]
      else if c = 61 then
        (match b64NonPaddedDialect.pad with | some p => [p] | none => [])
      else [c]) = (b64DigitsOfBytes v).map b64DigitChar := by
    refine flatMap_singleton_eq _ _ ?_
    intro c hc
    rcases List.mem_map.mp hc with ⟨d, hd, hcd⟩
    have hlt := b64DigitsOfBytes_lt v hb d hd
    have := (b64DigitChar_facts d hlt).2.2.2.2.2.2
    rw [← hcd]
    exact this
  have hp : (List.replicate ((4 - (b64DigitsOfBytes v).length % 4) % 4)
      61).flatMap (fun c =>
      if c = 43 then [b64NonPaddedDialect.d62]
      else if c = 47 then [b64NonPaddedDialect.d63]
      else if c = 61 then
        (match b64NonPaddedDialect.pad with | some p => [p] | none => [])
      else [c]) = [] := by
    refine flatMap_nil_eq _ _ ?_
    intro c hc
    rw [List.eq_of_mem_replicate hc]
    rfl
  rw [hd, hp, List.append_nil]

theorem b64Repair_enc (v : ByteBuf) (hb : ∀ b ∈ v, b < 256) :
    b64Repair b64NonPaddedDialect ((b64DigitsOfBytes v).map b64DigitChar)
      = (b64DigitsOfBytes v).map b64DigitChar := by
  set ds := b64DigitsOfBytes v with hds
  rw [b64Repair]
  by_cases h4 : (ds.map b64DigitChar).length % 4 = 0
  · rw [if_pos h4]
  · rw [if_neg h4]
    rcases b64_tail_ok v hb with h | ⟨h1, dl, hl, hm⟩
    · exact absurd (by simpa using h) h4
    · have hdl_lt : dl < 64 :=
        b64DigitsOfBytes_lt v hb dl (List.mem_of_mem_getLast? hl)
    -- the final character is the digit character of the final digit value
      have hlast : (ds.map b64DigitChar).getLastD 0 = b64DigitChar dl := by
        rw [List.getLastD_eq_getLast?, List.getLast?_map, hds, hl]
        rfl
      have hov : b64Overflow b64NonPaddedDialect
          ((ds.map b64DigitChar).length * 6 % 8)
          ((ds.map b64DigitChar).getLastD 0) = false := by
        rw [b64Overflow, hlast]
        have hfind := (b64DigitChar_facts dl hdl_lt).2.2.2.2.2.1
        have : (alphabet62 ++ [b64NonPaddedDialect.d62,
            b64NonPaddedDialect.d63] ++ b64NonPaddedDialect.pad.toList)
            = alphabet62 ++ [43, 47] := by
          rfl
        rw [this, hfind]
        simp only [Nat.and_pow_two_sub_one_eq_mod, List.length_map]
        rw [hds]
        simp [hm]
      have h1b : ¬(List.map b64DigitChar ds).length % 4 = 1 := by
        rw [List.length_map, hds]; exact h1
      simp only [List.length_map, List.getLastD_eq_getLast?,
        List.getLast?_map] at hov h1b
      simp [hov, h1b]

theorem b64_roundTrip (v : ByteBuf) (hne : v ≠ []) (hb : ∀ b ∈ v, b < 256) :
    ∃ e ∈ b64Encodings b64DefaultDialects v, ∃ r,
      b64ExtractDecode b64DefaultDialects e (some 0) = .ok r ∧ v ∈ r := by
  set ds := b64DigitsOfBytes v with hds
  set e := ds.map b64DigitChar with he
  have hchars : ∀ c ∈ e, ∃ d, d < 64 ∧ c = b64DigitChar d := by
    intro c hc
    rcases List.mem_map.mp hc with ⟨d, hd, hcd⟩
    exact ⟨d, b64DigitsOfBytes_lt v hb d (hds ▸ hd), hcd.symm⟩
  have hds_ne : ds ≠ [] := by
    rw [hds]
    intro h
    exact hne ((b64DigitsOfBytes_eq_nil v).mp h)
  have he_ne : e ≠ [] := by
    rw [he]
    simpa using hds_ne
  have hascii : ∀ c ∈ e, c < 128 := by
    intro c hc
    rcases hchars c hc with ⟨d, hd, hcd⟩
    exact hcd ▸ (b64DigitChar_facts d hd).1
  have hstr : (utf8DecodeCU e).filter (fun c => !(c = 13 || c = 10)) = e := by
    rw [utf8DecodeCU_ascii e hascii]
    rw [List.filter_eq_self]
    intro c hc
    rcases hchars c hc with ⟨d, hd, hcd⟩
    have h13 := (b64DigitChar_facts d hd).2.2.1
    have h10 := (b64DigitChar_facts d hd).2.2.2.1
    subst hcd
    simp [h13, h10]
  have hclass : ∀ c ∈ e, b64ClassD b64NonPaddedDialect c = true := by
    intro c hc
    rcases hchars c hc with ⟨d, hd, hcd⟩
    exact hcd ▸ (b64DigitChar_facts d hd).2.1
  have hmatches : b64Matches b64NonPaddedDialect e = [e] := by
    rw [b64Matches]
    exact splitRunsBy_all _ e he_ne hclass
  have hmem_e : e ∈ b64Encodings b64DefaultDialects v := by
    rw [b64Encodings]
    refine List.mem_map.mpr ⟨b64NonPaddedDialect, by decide, ?_⟩
    rw [if_neg (by decide), b64ApplyDialect_nonPadded v hb,
      utf8EncodeCU_ascii _ (by rw [← hds, ← he]; exact hascii), he, hds]
  have hstd : b64StdDecode e = v := by
    rw [b64StdDecode, he, List.filterMap_map]
    have : ds.filterMap (fun d => stdDigitVal (b64DigitChar d)) = ds := by
      refine filterMap_some_eq _ _ ?_
      intro d hd
      exact (b64DigitChar_facts d
        (b64DigitsOfBytes_lt v hb d (hds ▸ hd))).2.2.2.2.1
    rw [show (stdDigitVal ∘ b64DigitChar) = fun d => stdDigitVal
      (b64DigitChar d) from rfl, this, hds, b64BytesOfDigits_enc v hb]
  refine ⟨e, hmem_e, _, rfl, ?_⟩
  simp only [hstr]
  refine List.mem_flatMap.mpr ⟨b64NonPaddedDialect, by decide, ?_⟩
  rw [hmatches]
  simp only [List.flatMap_cons, List.flatMap_nil, List.append_nil]
  have hguard1 : (!minLenLe (some 0) e.length) = false := by
    simp [minLenLe]
  rw [hguard1]
  simp only [Bool.false_eq_true, if_false]
  have hm1 : (match b64NonPaddedDialect.pad with
      | some p => e.filter (fun c => c ≠ p)
      | none => e) = e := rfl
  rw [hm1]
  rw [if_pos (by decide :
    ((b64NonPaddedDialect.d62 = 43 && b64NonPaddedDialect.d63 = 47)
      || (b64NonPaddedDialect.d62 = 45 && b64NonPaddedDialect.d63 = 95))
      = true)]
  have hguard2 : (decide (e.length = 0) || !minLenLe (some 0) e.length)
      = false := by
    have : e.length ≠ 0 := by
      intro h
      exact he_ne (List.length_eq_zero.mp h)
    simp [minLenLe, this]
  rw [hguard2]
  simp only [Bool.false_eq_true, if_false]
  have hrep : b64Repair b64NonPaddedDialect e = e := by
    rw [he, hds]
    exact b64Repair_enc v hb
  rw [hrep]
  rw [if_neg (by decide :
    ¬((b64NonPaddedDialect.d62 = 45 && b64NonPaddedDialect.d63 = 95)
      = true))]
  rw [hstd]
  exact List.mem_singleton.mpr rfl

/-- C2.  Codec round-trip for the reversible substring codecs under
verification (`HexTransform` and `Base64Transform` with their default
constructor arguments): for every non-empty byte buffer `v` there is an
encoding `e` among `encodings(v)` such that `extractDecode(e, 0)` yields a
buffer equal to `v`.  (For hex, the lowercase rendering; for base64, the
non-padded standard dialect rendering.) -/
theorem codec_roundTrip :
    (∀ v : ByteBuf, v ≠ [] → (∀ b ∈ v, b < 256) →
      ∃ e ∈ hexEncodings v, ∃ r, hexExtractDecode e (some 0) = .ok r ∧
        v ∈ r) ∧
    (∀ v : ByteBuf, v ≠ [] → (∀ b ∈ v, b < 256) →
      ∃ e ∈ b64Encodings b64DefaultDialects v, ∃ r,
        b64ExtractDecode b64DefaultDialects e (some 0) = .ok r ∧ v ∈ r) :=
  ⟨fun v hne hb => hex_roundTrip v hne hb,
   fun v hne hb => b64_roundTrip v hne hb⟩

theorem codec_roundTrip_witness :
    (([97, 98] : ByteBuf) ≠ [] ∧ (∀ b ∈ ([97, 98] : ByteBuf), b < 256) ∧
      ∃ e ∈ hexEncodings [97, 98], ∃ r,
        hexExtractDecode e (some 0) = .ok r ∧ ([97, 98] : ByteBuf) ∈ r) ∧
    (([102] : ByteBuf) ≠ [] ∧ (∀ b ∈ ([102] : ByteBuf), b < 256) ∧
      ∃ e ∈ b64Encodings b64DefaultDialects [102], ∃ r,
        b64ExtractDecode b64DefaultDialects e (some 0) = .ok r ∧
          ([102] : ByteBuf) ∈ r) :=
  ⟨⟨by simp, by decide, codec_roundTrip.1 [97, 98] (by simp) (by decide)⟩,
   ⟨by simp, by decide, codec_roundTrip.2 [102] (by simp) (by decide)⟩⟩

theorem base64_tail_bit_recovery_witness :
    (([81] : CUStr).length % 4 ≠ 0 ∧
      (b64Repair b64PaddedDialect [81] = [81] ++ [65] ↔
        ((match (alphabet62 ++ [b64PaddedDialect.d62, b64PaddedDialect.d63]
            ++ b64PaddedDialect.pad.toList).findIdx?
            (fun c => c = ([81] : CUStr).getLastD 0) with
          | some i => i % 2 ^ (([81] : CUStr).length * 6 % 8) ≠ 0
          | none => True) ∨ ([81] : CUStr).length % 4 = 1))) ∧
    (([65, 66, 67, 68] : CUStr).length % 4 = 0 ∧
      b64Repair b64PaddedDialect [65, 66, 67, 68] = [65, 66, 67, 68]) :=
  ⟨⟨by decide,
    base64_tail_bit_recovery.1 b64PaddedDialect [81] (by decide)⟩,
   ⟨by decide,
    base64_tail_bit_recovery.2.1 b64PaddedDialect [65, 66, 67, 68]
      (by decide)⟩⟩
